import Mathlib

/-!
# go-manidator: a verification development

A shallow embedding of `dator.go` and `manidator.go`.

Go strings and byte slices are lists of bytes (`Bytes`); `len` is `List.length`, a slice
`s[i:j]` is `(s.take j).drop i`.  The standard-library functions the two files call
(`strings.TrimSpace`, `strings.LastIndex`, `strings.Repeat`, `fmt.Sprintf`, the `unicode/utf8`
decoders and `unicode.IsSpace`) are embedded from the Go sources, loop by loop.
-/

namespace GoManidator

/-- A Go string or byte slice: its bytes, in order.  A byte is a natural number below 256; the
functions below are defined on all naturals (a larger one is an invalid first byte) and the
theorems do not need the bound. -/
abbrev Bytes := List Nat

/-! ## unicode/utf8 and unicode -/

/-- Constant `utf8.RuneError`, the replacement character U+FFFD. -/
def RuneError : Nat := 0xFFFD

/-- Constant `utf8.RuneSelf`: bytes below it are single-byte runes. -/
def RuneSelf : Nat := 0x80

/-- Table `utf8.first`: the information byte of a first byte (`as = 0xF0` for ASCII, `xx = 0xF1`
for an invalid first byte, otherwise accept-range index in the high nibble and size in the low
three bits). -/
def first (b : Nat) : Nat :=
  if b < 0x80 then 0xF0
  else if b < 0xC2 then 0xF1
  else if b < 0xE0 then 0x02
  else if b = 0xE0 then 0x13
  else if b < 0xED then 0x03
  else if b = 0xED then 0x23
  else if b < 0xF0 then 0x03
  else if b = 0xF0 then 0x34
  else if b < 0xF4 then 0x04
  else if b = 0xF4 then 0x44
  else 0xF1

/-- Table `utf8.acceptRanges`, field `lo`. -/
def acceptLo (k : Nat) : Nat :=
  match k with
  | 0 => 0x80
  | 1 => 0xA0
  | 2 => 0x80
  | 3 => 0x90
  | _ => 0x80

/-- Table `utf8.acceptRanges`, field `hi`. -/
def acceptHi (k : Nat) : Nat :=
  match k with
  | 0 => 0xBF
  | 1 => 0xBF
  | 2 => 0x9F
  | 3 => 0xBF
  | _ => 0x8F

/-- Function `utf8.DecodeRuneInString`: the first rune of `s` and its width in bytes; an invalid
encoding gives `(RuneError, 1)`, the empty string `(RuneError, 0)`.  The masks and shifts of the
source are written with `%` and `*` (`b & 0x3F = b % 64`, `x << 6 = x * 64`). -/
def DecodeRuneInString (s : Bytes) : Nat × Nat :=
  match s with
  | [] => (RuneError, 0)
  | s0 :: _ =>
    let x := first s0
    if x ≥ 0xF0 then (if x = 0xF0 then s0 else RuneError, 1)
    else
      let sz := x % 8
      let k := x / 16
      if s.length < sz then (RuneError, 1)
      else
        let s1 := s.getD 1 0
        if s1 < acceptLo k ∨ acceptHi k < s1 then (RuneError, 1)
        else if sz ≤ 2 then ((s0 % 32) * 64 + s1 % 64, 2)
        else
          let s2 := s.getD 2 0
          if s2 < 0x80 ∨ 0xBF < s2 then (RuneError, 1)
          else if sz ≤ 3 then ((s0 % 16) * 4096 + (s1 % 64) * 64 + s2 % 64, 3)
          else
            let s3 := s.getD 3 0
            if s3 < 0x80 ∨ 0xBF < s3 then (RuneError, 1)
            else ((s0 % 8) * 262144 + (s1 % 64) * 4096 + (s2 % 64) * 64 + s3 % 64, 4)

/-- Function `utf8.RuneStart`: `b & 0xC0 != 0x80`, the byte is not a continuation byte. -/
def RuneStart (b : Nat) : Bool := (b / 64) % 4 != 2

/-- The backward scan of `utf8.DecodeLastRuneInString`
(`for start--; start >= lim; start-- { if RuneStart(s[start]) { break } }` followed by
`if start < 0 { start = 0 }`); the argument is `start + 1`. -/
def scanStart (s : Bytes) (lim : Nat) : Nat → Nat
  | 0 => 0
  | st + 1 =>
    if st < lim then st
    else if RuneStart (s.getD st 0) then st
    else scanStart s lim st

/-- Function `utf8.DecodeLastRuneInString`: the last rune of `s` and its width. -/
def DecodeLastRuneInString (s : Bytes) : Nat × Nat :=
  if s.length = 0 then (RuneError, 0)
  else
    let r := s.getD (s.length - 1) 0
    if r < RuneSelf then (r, 1)
    else
      let lim := s.length - 4
      let start := scanStart s lim (s.length - 1)
      let d := DecodeRuneInString (s.drop start)
      if start + d.2 ≠ s.length then (RuneError, 1) else d

/-- Function `unicode.IsSpace`: the Latin-1 switch, then the `White_Space` range table. -/
def IsSpace (r : Nat) : Bool :=
  if r ≤ 0xFF then
    r == 9 || r == 10 || r == 11 || r == 12 || r == 13 || r == 32 || r == 0x85 || r == 0xA0
  else
    r == 0x1680 || (0x2000 ≤ r && r ≤ 0x200A) || r == 0x2028 || r == 0x2029 || r == 0x202F
      || r == 0x205F || r == 0x3000

/-- Function `utf8.RuneCountInString`: the number of runes of `s`, an invalid byte counting as
one rune; `fuel` bounds the number of loop iterations. -/
def runeCountLoop : Nat → Bytes → Nat
  | 0, _ => 0
  | _ + 1, [] => 0
  | fuel + 1, b :: s =>
    1 + runeCountLoop fuel ((b :: s).drop (DecodeRuneInString (b :: s)).2)

/-- Function `utf8.RuneCountInString`. -/
def RuneCountInString (s : Bytes) : Nat := runeCountLoop s.length s

/-! ## strings -/

/-- Table `strings.asciiSpace`: tab, newline, vertical tab, form feed, carriage return, space. -/
def asciiSpace (c : Nat) : Bool :=
  c == 9 || c == 10 || c == 11 || c == 12 || c == 13 || c == 32

/-- The loop of `strings.indexFunc(s, unicode.IsSpace, false)` as used by `TrimLeftFunc`: skip
runes while they are white space and return `s[i:]` for the first index `i` holding another
rune, or the empty string when there is none. -/
def trimLeftLoop : Nat → Bytes → Bytes
  | 0, s => s
  | _ + 1, [] => []
  | fuel + 1, b :: s =>
    let d := DecodeRuneInString (b :: s)
    if IsSpace d.1 then trimLeftLoop fuel ((b :: s).drop d.2) else b :: s

/-- Function `strings.TrimLeftFunc(s, unicode.IsSpace)`. -/
def TrimLeftFunc (s : Bytes) : Bytes := trimLeftLoop s.length s

/-- The loop of `strings.lastIndexFunc(s, unicode.IsSpace, false)`: starting from `i`, decode
the last rune of `s[0:i]` and step back over it while it is white space; `-1` when every rune
is. -/
def lastIndexLoop (s : Bytes) : Nat → Nat → Int
  | 0, _ => -1
  | fuel + 1, i =>
    if i = 0 then -1
    else
      let d := DecodeLastRuneInString (s.take i)
      if IsSpace d.1 then lastIndexLoop s fuel (i - d.2) else ((i - d.2 : Nat) : Int)

/-- Function `strings.lastIndexFunc(s, unicode.IsSpace, false)`. -/
def lastIndexFunc (s : Bytes) : Int := lastIndexLoop s s.length s.length

/-- Function `strings.TrimRightFunc(s, unicode.IsSpace)`. -/
def TrimRightFunc (s : Bytes) : Bytes :=
  let i := lastIndexFunc s
  if 0 ≤ i ∧ RuneSelf ≤ s.getD i.toNat 0 then
    s.take (i.toNat + (DecodeRuneInString (s.drop i.toNat)).2)
  else
    s.take (i + 1).toNat

/-- Function `strings.TrimFunc(s, unicode.IsSpace)`. -/
def TrimFunc (s : Bytes) : Bytes := TrimRightFunc (TrimLeftFunc s)

/-- The second loop of `strings.TrimSpace` on `u = s[start:]`, the argument being
`stop - start`: step back over ASCII white space, hand over to `TrimRightFunc` at a non-ASCII
byte. -/
def trimSpaceStop (u : Bytes) : Nat → Bytes
  | 0 => []
  | k + 1 =>
    let c := u.getD k 0
    if RuneSelf ≤ c then TrimRightFunc (u.take (k + 1))
    else if asciiSpace c then trimSpaceStop u k
    else u.take (k + 1)

/-- Function `strings.TrimSpace`: the first loop steps over leading ASCII white space and hands
over to `TrimFunc` at a non-ASCII byte; then the second loop runs. -/
def TrimSpace : Bytes → Bytes
  | [] => []
  | c :: rest =>
    if RuneSelf ≤ c then TrimFunc (c :: rest)
    else if asciiSpace c then TrimSpace rest
    else trimSpaceStop (c :: rest) (rest.length + 1)

/-- The loop of `bytealg.LastIndexByteString`, `for i := len(s) - 1; i >= 0; i--`; the argument
is `i + 1`. -/
def lastIndexByteLoop (s : Bytes) (c : Nat) : Nat → Int
  | 0 => -1
  | i + 1 => if s.getD i 0 = c then (i : Int) else lastIndexByteLoop s c i

/-- Function `strings.LastIndex(s, substr)` for a one-byte `substr`, which the source dispatches
to `LastIndexByteString`. -/
def LastIndexByte (s : Bytes) (c : Nat) : Int := lastIndexByteLoop s c s.length

/-- Function `strings.Repeat`. -/
def Repeat (s : Bytes) : Nat → Bytes
  | 0 => []
  | n + 1 => s ++ Repeat s n

/-! ## dator.go -/

/-- Type `DefaultDator`: the embedded `*bytes.Buffer` (its unread bytes), the name and the closed
flag. -/
structure DefaultDator where
  Buffer : Bytes
  name : Bytes
  closed : Bool
deriving DecidableEq, Repr

/-- Function `NewDator`: an empty buffer, the given name, `closed` at its zero value. -/
def NewDator (name : Bytes) : DefaultDator :=
  { Buffer := [], name := name, closed := false }

/-- Method `GetName`. -/
def DefaultDator.GetName (this : DefaultDator) : Bytes := this.name

/-- Method `GetLastLine`. -/
def DefaultDator.GetLastLine (this : DefaultDator) : Bytes :=
  let line := TrimSpace this.Buffer
  let pos := LastIndexByte line 10
  let line := if pos ≠ -1 then line.drop pos.toNat else line
  TrimSpace line

/-- Method `IsClosed`. -/
def DefaultDator.IsClosed (this : DefaultDator) : Bool := this.closed

/-- Method `Close`: sets the flag; the returned error is always `nil` (`none`). -/
def DefaultDator.Close (this : DefaultDator) : DefaultDator × Option Unit :=
  ({ this with closed := true }, none)

/-- Method `Write`, promoted from the embedded `*bytes.Buffer`: `bytes.Buffer.Write` appends `p`
and returns `len(p)` and a `nil` error. -/
def DefaultDator.Write (this : DefaultDator) (p : Bytes) : DefaultDator × Nat × Option Unit :=
  ({ this with Buffer := this.Buffer ++ p }, p.length, none)

/-- A call made by a producer on a Dator. -/
inductive Call where
  | write (p : Bytes)
  | close
deriving DecidableEq, Repr

/-- One call applied to a Dator. -/
def DefaultDator.step (this : DefaultDator) : Call → DefaultDator
  | .write p => (this.Write p).1
  | .close => this.Close.1

/-- A sequence of calls applied in order. -/
def DefaultDator.run (this : DefaultDator) (calls : List Call) : DefaultDator :=
  calls.foldl DefaultDator.step this

/-! ## fmt -/

/-- An operand of `fmt.Sprintf`: the sources pass strings and ints only. -/
inductive Arg where
  | str (s : Bytes)
  | int (n : Int)
deriving DecidableEq, Repr

/-- Function `fmt.tooLarge`, on the non-negative numbers `parsenum` builds. -/
def tooLarge (x : Nat) : Bool := decide (1000000 < x)

/-- The loop of `fmt.parsenum`: the number, whether a digit was read, and the format after it.
On overflow the source returns `(0, false, end)`: nothing of the format is left. -/
def parsenumLoop : Bytes → Nat → Bool → Nat × Bool × Bytes
  | [], num, isnum => (num, isnum, [])
  | c :: s, num, isnum =>
    if 48 ≤ c ∧ c ≤ 57 then
      if tooLarge num then (0, false, [])
      else parsenumLoop s (num * 10 + (c - 48)) true
    else (num, isnum, c :: s)

/-- Function `fmt.parsenum`. -/
def parsenum (s : Bytes) : Nat × Bool × Bytes := parsenumLoop s 0 false

/-- The digit loop of `fmt.fmtInteger` in base 10
(`for u >= 10 { next := u / 10; buf[i] = '0' + u - next*10; u = next }`, then the last digit),
writing from the right. -/
def digitsLoop : Nat → Nat → Bytes → Bytes
  | 0, u, acc => (48 + u) :: acc
  | fuel + 1, u, acc =>
    if 10 ≤ u then digitsLoop fuel (u / 10) ((48 + u % 10) :: acc) else (48 + u) :: acc

/-- Verb `%d` without flags or width: the decimal digits, after a minus sign when negative. -/
def fmtDecimal (n : Int) : Bytes :=
  (if n < 0 then [45] else []) ++ digitsLoop n.natAbs n.natAbs []

/-- Function `fmt.padString` without the minus flag: no padding when no width is given,
otherwise `wid - RuneCountInString(s)` pad bytes on the left (none when that is not positive). -/
def padString (wid : Nat) (widPresent : Bool) (s : Bytes) : Bytes :=
  if !widPresent || wid == 0 then s
  else List.replicate (wid - RuneCountInString s) 32 ++ s

/-- Function `printArg` for the verbs the sources use: `%s` of a string with an optional width,
`%d` of an int and `%c` of an ASCII code point without flags or width.  `none` stands for every
other combination, which is outside the embedded fragment of `fmt`. -/
def printArg (arg : Arg) (verb : Nat) (wid : Nat) (widPresent zero : Bool) : Option Bytes :=
  match arg with
  | .str s =>
    if verb = 115 then
      if zero && widPresent && wid != 0 then none else some (padString wid widPresent s)
    else none
  | .int n =>
    if widPresent || zero then none
    else if verb = 100 then some (fmtDecimal n)
    else if verb = 99 then (if 0 ≤ n ∧ n < 128 then some [n.toNat] else none)
    else none

/-- The flag loop of `doPrintf` restricted to the flag `0`: whether it was seen, and the format
after the flags. -/
def skipZeroFlags : Bytes → Bool × Bytes
  | 48 :: s => (true, (skipZeroFlags s).2)
  | s => (false, s)

/-- Function `doPrintf`: literal bytes are copied; after `%` come the flags, the width, the verb.
The result is `none` when the format or the operands leave the embedded fragment: another flag
than `0`, an argument index, `*`, a precision, a verb `printArg` does not embed, and the error
markers `%!(NOVERB)` (also written after a width that `parsenum` rejects as too large),
`%!verb(MISSING)` and `%!(EXTRA ...)`.  `fuel` bounds the number of format bytes visited. -/
def doPrintf : Nat → Bytes → List Arg → Option Bytes
  | 0, _, _ => none
  | _ + 1, [], args => if args = [] then some [] else none
  | fuel + 1, c :: fs, args =>
    if c ≠ 37 then (doPrintf fuel fs args).map (fun r => c :: r)
    else
      let zero := (skipZeroFlags fs).1
      match (skipZeroFlags fs).2 with
      | [] => none
      | v :: rest =>
        if v = 35 ∨ v = 43 ∨ v = 45 ∨ v = 32 then none
        else if 97 ≤ v ∧ v ≤ 122 ∧ args ≠ [] then
          match args with
          | [] => none
          | a :: as =>
            (printArg a v 0 false zero).bind fun x =>
              (doPrintf fuel rest as).map (fun r => x ++ r)
        else if v = 91 ∨ v = 42 then none
        else
          match parsenum (v :: rest) with
          | (_, _, []) => none
          | (wid, widPresent, verb :: rest2) =>
            if verb = 46 ∨ 128 ≤ verb then none
            else if verb = 37 then (doPrintf fuel rest2 args).map (fun r => 37 :: r)
            else
              match args with
              | [] => none
              | a :: as =>
                (printArg a verb wid widPresent zero).bind fun x =>
                  (doPrintf fuel rest2 as).map (fun r => x ++ r)

/-- Function `fmt.Sprintf` (and what `fmt.Printf` writes to standard output). -/
def Sprintf (format : Bytes) (args : List Arg) : Option Bytes :=
  doPrintf (format.length + 1) format args

/-! ## manidator.go -/

/-- Constant `ESC`. -/
def ESC : Int := 27

/-- Variable `DefaultInterval`, 50ms in nanoseconds. -/
def DefaultInterval : Int := 50 * 1000000

/-- Variable `DefaultTerminalWidth`. -/
def DefaultTerminalWidth : Int := 80

/-- Variable `eraseLine`: `fmt.Sprintf("%c[%dA%c[2K\r", ESC, 1, ESC)`. -/
def eraseLine : Bytes :=
  (Sprintf [37, 99, 91, 37, 100, 65, 37, 99, 91, 50, 75, 13] [.int ESC, .int 1, .int ESC]).getD []

/-- Interface `Dator` as the render loop uses it: what `GetName`, `GetLastLine` and `IsClosed`
answer when a render pass calls them. -/
structure Dator where
  GetName : Bytes
  GetLastLine : Bytes
  IsClosed : Bool
deriving DecidableEq, Repr

/-- A `DefaultDator` seen through the `Dator` interface. -/
def DefaultDator.toDator (d : DefaultDator) : Dator :=
  { GetName := d.GetName, GetLastLine := d.GetLastLine, IsClosed := d.IsClosed }

/-- Type `Manidator`.  `nameWidth` is a Go `int`; the field is unexported, starts at zero and is
only ever assigned a `len(...)`, so it is a natural number.  `done` and `cancel` record whether
the channel of that name has been closed.  The wait group is left out. -/
structure Manidator where
  Interval : Int
  dators : List Dator
  nameWidth : Nat
  fmtString : Bytes
  done : Bool
  cancel : Bool
deriving DecidableEq, Repr

/-- Method `Add`. -/
def Manidator.Add (this : Manidator) (dators : List Dator) : Manidator :=
  { this with dators := this.dators ++ dators }

/-- Function `New`. -/
def New (dators : List Dator) : Manidator :=
  Manidator.Add
    { Interval := DefaultInterval, dators := [], nameWidth := 0, fmtString := [],
      done := false, cancel := false }
    dators

/-- The loop of `init`: `if l := len(d.GetName()); l > nameWidth { nameWidth = l }`. -/
def initLoop : List Dator → Nat → Nat
  | [], nameWidth => nameWidth
  | d :: ds, nameWidth =>
    let l := d.GetName.length
    initLoop ds (if nameWidth < l then l else nameWidth)

/-- The line template `init` builds: `fmt.Sprintf("%%%ds> %%s\n", nameWidth)`. -/
def lineTemplate (nameWidth : Nat) : Bytes :=
  (Sprintf [37, 37, 37, 100, 115, 62, 32, 37, 37, 115, 10] [.int nameWidth]).getD []

/-- Method `init`. -/
def Manidator.init (this : Manidator) : Manidator :=
  let nameWidth := initLoop this.dators this.nameWidth
  { this with nameWidth := nameWidth, fmtString := lineTemplate nameWidth }

/-- A slice expression `s[low:]`: `none` is the run-time panic for a bound out of range. -/
def sliceFrom (s : Bytes) (low : Int) : Option Bytes :=
  if low < 0 ∨ (s.length : Int) < low then none else some (s.drop low.toNat)

/-- What a render pass has done so far: the bytes written to standard output (`none` when a
`Printf` call left the embedded fragment of `fmt`), the answers `IsClosed` gave, the counter
`closedCnt`, and whether a slice expression panicked. -/
structure Pass where
  out : Option Bytes
  polled : List Bool
  closedCnt : Nat
  panicked : Bool
deriving DecidableEq, Repr

/-- The name a render pass prints: `if len(name) > this.nameWidth { name = name[this.nameWidth:] }`. -/
def nameField (nameWidth : Nat) (name : Bytes) : Option Bytes :=
  if nameWidth < name.length then sliceFrom name nameWidth else some name

/-- The line a render pass prints:
`if len(line) > maxWidth { line = "..." + line[len(line)-maxWidth:] }`. -/
def ellide (maxWidth : Int) (line : Bytes) : Option Bytes :=
  if maxWidth < line.length then
    (sliceFrom line (line.length - maxWidth)).map (fun t => [46, 46, 46] ++ t)
  else some line

/-- The loop of `printLines` over the Dators, in order. -/
def printLoop (nameWidth : Nat) (fmtString : Bytes) (maxWidth : Int) : List Dator → Pass → Pass
  | [], p => p
  | dator :: ds, p =>
    match nameField nameWidth dator.GetName with
    | none => { p with panicked := true }
    | some name =>
      match ellide maxWidth dator.GetLastLine with
      | none => { p with panicked := true }
      | some line =>
        printLoop nameWidth fmtString maxWidth ds
          { out := p.out.bind fun o => (Sprintf fmtString [.str name, .str line]).map (o ++ ·)
            polled := p.polled ++ [dator.IsClosed]
            closedCnt := if dator.IsClosed then p.closedCnt + 1 else p.closedCnt
            panicked := false }

/-- The outcome of `printLines`: the output, the `IsClosed` answers received, the state of the
`done` channel afterwards, and whether the pass ended in a run-time panic (a slice bound out of
range, or `close` of the already closed channel). -/
structure PassResult where
  out : Option Bytes
  polled : List Bool
  done : Bool
  panicked : Bool
deriving DecidableEq, Repr

/-- The width a render pass works with: `terminal.GetSize(0)` reports `size`, or fails (`none`)
and `DefaultTerminalWidth` is taken. -/
def terminalWidth (size : Option Int) : Int :=
  match size with
  | some w => w
  | none => DefaultTerminalWidth

/-- Method `printLines`; `size` is the width `terminal.GetSize(0)` reports, `none` when it
returns an error. -/
def Manidator.printLines (this : Manidator) (size : Option Int) : PassResult :=
  let width := terminalWidth size
  let maxWidth := width - this.nameWidth - 6
  let p := printLoop this.nameWidth this.fmtString maxWidth this.dators
    { out := some [], polled := [], closedCnt := 0, panicked := false }
  if p.panicked then
    { out := p.out, polled := p.polled, done := this.done, panicked := true }
  else if p.closedCnt = this.dators.length then
    { out := p.out, polled := p.polled, done := true, panicked := this.done }
  else
    { out := p.out, polled := p.polled, done := this.done, panicked := false }

/-- Method `eraseLines`: what it writes to standard output. -/
def Manidator.eraseLines (this : Manidator) : Option Bytes :=
  Sprintf (Repeat eraseLine this.dators.length) []

/-! ## Specification-side definitions -/

/-- The part of `t` after its last newline byte, all of `t` when it has none. -/
def afterLastNewline (t : Bytes) : Bytes :=
  (t.reverse.takeWhile (fun b => b != 10)).reverse

/-- The longest name of a list of Dators, in bytes; zero for the empty list. -/
def maxNameLen (ds : List Dator) : Nat :=
  (ds.map fun d => d.GetName.length).foldr max 0

/-- The decimal numeral of `n` as ASCII digits. -/
def decimal (n : Nat) : Bytes :=
  if n = 0 then [48] else (Nat.digits 10 n).reverse.map (fun d => 48 + d)

/-- The maximum content width of a render pass: the terminal width less the name column and the
six columns of decoration. -/
def maxContentWidth (this : Manidator) (size : Option Int) : Int :=
  terminalWidth size - this.nameWidth - 6

/-- The last `n` bytes of `s`. -/
def lastBytes (n : Nat) (s : Bytes) : Bytes := s.drop (s.length - n)

/-- One rendered row: the name right-aligned by `fmt` in a column of `nameWidth` runes, then
`"> "`, the content and a newline. -/
def row (nameWidth : Nat) (name content : Bytes) : Bytes :=
  List.replicate (nameWidth - RuneCountInString name) 32 ++ name ++ [62, 32] ++ content ++ [10]

/-- The name column content of a row: a name longer than `nameWidth` loses its first `nameWidth`
bytes. -/
def shownName (nameWidth : Nat) (name : Bytes) : Bytes :=
  if nameWidth < name.length then name.drop nameWidth else name

/-- The content of a row: a line longer than `maxWidth` is shown as three dots and its last
`maxWidth` bytes. -/
def shownLine (maxWidth : Int) (line : Bytes) : Bytes :=
  if maxWidth < line.length then [46, 46, 46] ++ lastBytes maxWidth.toNat line else line

/-- One row as the display line format words it: `nameWidth - len(name)` spaces, the name,
`"> "`, the content and a newline. -/
def rowByLen (nameWidth : Nat) (name content : Bytes) : Bytes :=
  List.replicate (nameWidth - name.length) 32 ++ name ++ [62, 32] ++ content ++ [10]

/-- The width of the white-space rune `s` starts with, zero when it starts with none. -/
def spaceLen (s : Bytes) : Nat :=
  if IsSpace (DecodeRuneInString s).1 then (DecodeRuneInString s).2 else 0

/-- The width of the white-space rune `s` ends with, zero when it ends with none. -/
def lastSpaceLen (s : Bytes) : Nat :=
  if IsSpace (DecodeLastRuneInString s).1 then (DecodeLastRuneInString s).2 else 0

/-- The string `s` is a sequence of encoded white-space runes. -/
inductive AllSpace : Bytes → Prop where
  | nil : AllSpace []
  | cons (w s : Bytes) : w ≠ [] → spaceLen w = w.length → AllSpace s → AllSpace (w ++ s)

/-- The runes of `s` as `for _, r := range s` yields them; `fuel` bounds the iterations. -/
def runesLoop : Nat → Bytes → List Nat
  | 0, _ => []
  | _ + 1, [] => []
  | fuel + 1, b :: s =>
    (DecodeRuneInString (b :: s)).1 ::
      runesLoop fuel ((b :: s).drop (DecodeRuneInString (b :: s)).2)

/-- The string `s` holds a rune that is not white space. -/
def hasNonSpace (s : Bytes) : Bool := (runesLoop s.length s).any (fun r => !IsSpace r)

/-- The newline-delimited segments of `c`, in order. -/
def segments : Bytes → List Bytes
  | [] => [[]]
  | b :: s =>
    if b = 10 then [] :: segments s
    else
      match segments s with
      | [] => [[b]]
      | seg :: rest => (b :: seg) :: rest

/-- The last newline-delimited segment of `c` that holds a rune other than white space; the
empty string when there is none. -/
def lastSegment (c : Bytes) : Bytes :=
  ((segments c).reverse.find? hasNonSpace).getD []

/-- One erase sequence: ESC `[1A` (cursor up one row), ESC `[2K` (clear the row), carriage
return. -/
def eraseSequence : Bytes := [27, 91, 49, 65, 27, 91, 50, 75, 13]

/-- Example: one stream named `é` (two bytes, one rune) showing `x`, after `New` and `init`. -/
def accentExample : Manidator := (New [⟨[195, 169], [120], false⟩]).init

/-- Example: streams `a`, `bb`, `ccc` showing `x`, `yy`, `zzz`, after `New` and `init`. -/
def threeExample : Manidator :=
  (New [⟨[97], [120], false⟩, ⟨[98, 98], [121, 121], false⟩,
    ⟨[99, 99, 99], [122, 122, 122], false⟩]).init

/-- Example: one stream named `abcde` showing `abcdefghijklmno`, after `New` and `init`. -/
def longLineExample : Manidator :=
  (New [⟨[97, 98, 99, 100, 101],
    [97, 98, 99, 100, 101, 102, 103, 104, 105, 106, 107, 108, 109, 110, 111], false⟩]).init

/-- Example: one closed stream named `abcde` with nothing written, after `New` and `init`. -/
def narrowExample : Manidator := (New [⟨[97, 98, 99, 100, 101], [], true⟩]).init

/-- Example: `Begin` ran with one stream named `abc`; then a stream named `abcdefgh` was added. -/
def lateExample : Manidator :=
  ((New [⟨[97, 98, 99], [120], false⟩]).init).Add
    [⟨[97, 98, 99, 100, 101, 102, 103, 104], [121], false⟩]

/-- One rendered row without its newline. -/
def rowText (nameWidth : Nat) (name content : Bytes) : Bytes :=
  List.replicate (nameWidth - RuneCountInString name) 32 ++ name ++ [62, 32] ++ content

/-- Example: a `DefaultDator` named `abcde` with nothing written, registered and `init` run. -/
def narrowDefaultExample : Manidator := (New [(NewDator [97, 98, 99, 100, 101]).toDator]).init

/-! ## The render loop and `Stop` as a transition system -/

/-- The case of the `select` in the render loop that fires: the refresh timer
(`<-time.After(this.Interval)`), `<-this.Done()`, `<-this.cancel` or `<-ctx.Done()`. -/
inductive Wait where
  | timer
  | done
  | cancel
  | ctx
deriving DecidableEq, Repr

/-- What the surroundings decide for one iteration of the loop: what the registered streams
answer during the pass, the width `terminal.GetSize` reports, whether the context of `Begin` is
done by the time of the wait, and the case of the `select` that fires. -/
structure Tick where
  dators : List Dator
  size : Option Int
  ctxDone : Bool
  wait : Wait
deriving DecidableEq, Repr

/-- Where the goroutine of `Begin` is: not started, in its `for` loop, returned, or unwound by a
run-time panic in `printLines` (the deferred call has run and the runtime is ending the
program). -/
inductive Phase where
  | idle
  | running
  | exited
  | crashed
deriving DecidableEq, Repr

/-- Where the caller of `Stop` is: not called, blocked in `wg.Wait()` after `close(this.cancel)`,
or returned. -/
inductive StopPc where
  | idle
  | waiting
  | returned
deriving DecidableEq, Repr

/-- The Manidator shared by the goroutine and its owner, the counter of the wait group `wg`, and
the two control points. -/
structure Sys where
  m : Manidator
  wg : Nat
  loop : Phase
  stop : StopPc
deriving DecidableEq, Repr

/-- What one step writes to standard output, and whether it called `eraseLines`. -/
structure StepOut where
  out : Option Bytes
  erased : Bool
deriving DecidableEq, Repr

/-- A step of the system: `Begin` is called, the loop runs one iteration, `Stop` closes `cancel`,
or `wg.Wait()` in `Stop` returns. -/
inductive Action where
  | begin
  | iterate (t : Tick)
  | stopClose
  | stopReturn
deriving DecidableEq, Repr

/-- A state before `Begin` and `Stop`. -/
def Sys.boot (m : Manidator) : Sys := { m := m, wg := 0, loop := .idle, stop := .idle }

/-- Whether a case of the `select` can fire: the timer always does in the end, a channel only
once it is closed. -/
def selectReady (m : Manidator) (ctxDone : Bool) : Wait → Bool
  | .timer => true
  | .done => m.done
  | .cancel => m.cancel
  | .ctx => ctxDone

/-- A step that writes nothing. -/
def StepOut.silent : StepOut := { out := some [], erased := false }

/-- Method `Begin`: `this.wg.Add(1)`, `this.init()`, then the goroutine is started.  A second
call is outside the model. -/
def Sys.Begin (s : Sys) : Option (Sys × StepOut) :=
  if s.loop = .idle then
    some ({ s with m := s.m.init, wg := s.wg + 1, loop := .running }, StepOut.silent)
  else none

/-- The render pass of one iteration: `this.printLines()` while the streams answer as the tick
says. -/
def Sys.pass (s : Sys) (t : Tick) : PassResult :=
  ({ s.m with dators := t.dators } : Manidator).printLines t.size

/-- The Manidator as the `select` of the iteration finds it: after the pass, which may have
closed `done`. -/
def Sys.seen (s : Sys) (t : Tick) : Manidator :=
  { s.m with dators := t.dators, done := (s.pass t).done }

/-- One iteration of the `for` loop of `Begin`: `printLines`, then the `select`.  On the timer
case `eraseLines` runs and the loop goes on; on the other cases the goroutine returns and the
deferred `this.wg.Done()` runs.  A panic in `printLines` unwinds the goroutine before the
`select`: the deferred `this.wg.Done()` runs as well, and the loop is over.  `none` when the
goroutine is not in its loop or the case cannot fire. -/
def Sys.iterate (s : Sys) (t : Tick) : Option (Sys × StepOut) :=
  if s.loop = .running then
    if (s.pass t).panicked then
      some ({ s with m := { s.m with dators := t.dators }, loop := .crashed, wg := s.wg - 1 },
        { out := (s.pass t).out, erased := false })
    else
      if selectReady (s.seen t) t.ctxDone t.wait then
        if t.wait = .timer then
          some ({ s with m := s.seen t },
            { out := (s.pass t).out.bind fun o => (s.seen t).eraseLines.map (o ++ ·),
              erased := true })
        else
          some ({ s with m := s.seen t, loop := .exited, wg := s.wg - 1 },
            { out := (s.pass t).out, erased := false })
      else none
  else none

/-- Method `Stop`, first statement: `close(this.cancel)`.  A second call of `Stop` is outside the
model. -/
def Sys.stopClose (s : Sys) : Option (Sys × StepOut) :=
  if s.stop = .idle then
    some ({ s with m := { s.m with cancel := true }, stop := .waiting }, StepOut.silent)
  else none

/-- Method `Stop`, second statement: `this.wg.Wait()` returns once the counter is zero. -/
def Sys.stopReturn (s : Sys) : Option (Sys × StepOut) :=
  if s.stop = .waiting ∧ s.wg = 0 then
    some ({ s with stop := .returned }, StepOut.silent)
  else none

/-- One step of the system; `none` when the action is not possible in the state. -/
def Sys.step (s : Sys) : Action → Option (Sys × StepOut)
  | .begin => s.Begin
  | .iterate t => s.iterate t
  | .stopClose => s.stopClose
  | .stopReturn => s.stopReturn

/-- A sequence of steps: the state reached and what each step wrote; `none` when one of the
actions is not possible. -/
def Sys.run (s : Sys) : List Action → Option (Sys × List StepOut)
  | [] => some (s, [])
  | a :: as =>
    match s.step a with
    | none => none
    | some (s1, o) =>
      match Sys.run s1 as with
      | none => none
      | some (s2, os) => some (s2, o :: os)

/-- Example: the three-stream Manidator before `init`. -/
def threeFresh : Manidator :=
  New [⟨[97], [120], false⟩, ⟨[98, 98], [121, 121], false⟩,
    ⟨[99, 99, 99], [122, 122, 122], false⟩]

/-- Example: the three streams answer as at the start, the terminal width is unknown, the
context is not done, and the given case fires. -/
def threeTick (w : Wait) : Tick :=
  { dators := threeFresh.dators, size := none, ctxDone := false, wait := w }

/-- The invariant of the system once `Begin` has run: the wait group counts the goroutine while
it is in its loop and no longer once it has returned or panicked, `Stop` has not returned while
the goroutine is in its loop, and `cancel` is closed once `Stop` has been called. -/
def Sys.Inv (s : Sys) : Prop :=
  ((s.loop = .running ∧ s.wg = 1 ∧ s.stop ≠ .returned) ∨ (s.loop = .exited ∧ s.wg = 0) ∨
    (s.loop = .crashed ∧ s.wg = 0)) ∧
  (s.stop ≠ .idle → s.m.cancel = true)

/-- Example: the state right after `Begin` on the three-stream Manidator. -/
def begunExample : Sys := { m := threeExample, wg := 1, loop := .running, stop := .idle }

/-- Example: the streams answer as at the start and the context of `Begin` fires. -/
def ctxTick : Tick :=
  { dators := threeFresh.dators, size := none, ctxDone := true, wait := .ctx }

/-- Example: `Begin`, a pass ended by the timer, `Stop` closing `cancel`, a pass ended by
`cancel`, and the return of `Stop`. -/
def stopTrace : List Action :=
  [.iterate (threeTick .timer), .stopClose, .iterate (threeTick .cancel), .stopReturn]

/-- Example: one open stream named `abcde` with nothing written, before `init`. -/
def narrowFresh : Manidator := New [⟨[97, 98, 99, 100, 101], [], false⟩]

/-- Example: the stream named `abcde` answers as at the start, the terminal is ten columns wide,
the context is not done, and `cancel` is the case that would fire. -/
def narrowTick : Tick :=
  { dators := narrowFresh.dators, size := some 10, ctxDone := false, wait := .cancel }

/-- Example: `Begin`, `Stop` closing `cancel`, the first pass of the loop, and the return of
`Stop`. -/
def stopEarlyTrace : List Action :=
  [.begin, .stopClose, .iterate narrowTick, .stopReturn]

/-- Example: a `DefaultDator` named `abcde` that received `x\ny\n`. -/
def writtenDator : DefaultDator := ((NewDator [97, 98, 99, 100, 101]).Write [120, 10, 121, 10]).1

/-- Example: `writtenDator` registered and `init` run. -/
def writtenExample : Manidator := (New [writtenDator.toDator]).init

/-! ## Theorems -/

/-! ### The UTF-8 decoder -/

theorem first_cases (a : Nat) :
    first a = 0xF0 ∧ a < 128 ∨ first a = 0xF1 ∧ 128 ≤ a ∨
    (first a < 0xF0 ∧ 2 ≤ first a % 8 ∧ first a % 8 ≤ 4 ∧ 0xC2 ≤ a ∧ a ≤ 0xF4) := by
  by_cases h1 : a < 0x80
  · have e : first a = 0xF0 := by simp only [first, if_pos h1]
    omega
  by_cases h2 : a < 0xC2
  · have e : first a = 0xF1 := by simp only [first, if_neg h1, if_pos h2]
    omega
  by_cases h3 : a < 0xE0
  · have e : first a = 0x02 := by simp only [first, if_neg h1, if_neg h2, if_pos h3]
    omega
  by_cases h4 : a = 0xE0
  · have e : first a = 0x13 := by simp only [first, if_neg h1, if_neg h2, if_neg h3, if_pos h4]
    omega
  by_cases h5 : a < 0xED
  · have e : first a = 0x03 := by
      simp only [first, if_neg h1, if_neg h2, if_neg h3, if_neg h4, if_pos h5]
    omega
  by_cases h6 : a = 0xED
  · have e : first a = 0x23 := by
      simp only [first, if_neg h1, if_neg h2, if_neg h3, if_neg h4, if_neg h5, if_pos h6]
    omega
  by_cases h7 : a < 0xF0
  · have e : first a = 0x03 := by
      simp only [first, if_neg h1, if_neg h2, if_neg h3, if_neg h4, if_neg h5, if_neg h6,
        if_pos h7]
    omega
  by_cases h8 : a = 0xF0
  · have e : first a = 0x34 := by
      simp only [first, if_neg h1, if_neg h2, if_neg h3, if_neg h4, if_neg h5, if_neg h6,
        if_neg h7, if_pos h8]
    omega
  by_cases h9 : a < 0xF4
  · have e : first a = 0x04 := by
      simp only [first, if_neg h1, if_neg h2, if_neg h3, if_neg h4, if_neg h5, if_neg h6,
        if_neg h7, if_neg h8, if_pos h9]
    omega
  by_cases h10 : a = 0xF4
  · have e : first a = 0x44 := by
      simp only [first, if_neg h1, if_neg h2, if_neg h3, if_neg h4, if_neg h5, if_neg h6,
        if_neg h7, if_neg h8, if_neg h9, if_pos h10]
    omega
  · have e : first a = 0xF1 := by
      simp only [first, if_neg h1, if_neg h2, if_neg h3, if_neg h4, if_neg h5, if_neg h6,
        if_neg h7, if_neg h8, if_neg h9, if_neg h10]
    omega

theorem accept_range (k : Nat) : 0x80 ≤ acceptLo k ∧ acceptHi k ≤ 0xBF := by
  unfold acceptLo acceptHi
  split <;> simp

/-- the decoder on a valid first byte, the length test folded into the range tests -/
theorem decode_lead (a : Nat) (t : Bytes) (hx : first a < 0xF0) :
    DecodeRuneInString (a :: t) =
      if t.getD 0 0 < acceptLo (first a / 16) ∨ acceptHi (first a / 16) < t.getD 0 0 then
        (RuneError, 1)
      else if first a % 8 ≤ 2 then ((a % 32) * 64 + t.getD 0 0 % 64, 2)
      else if t.getD 1 0 < 0x80 ∨ 0xBF < t.getD 1 0 then (RuneError, 1)
      else if first a % 8 ≤ 3 then ((a % 16) * 4096 + (t.getD 0 0 % 64) * 64 + t.getD 1 0 % 64, 3)
      else if t.getD 2 0 < 0x80 ∨ 0xBF < t.getD 2 0 then (RuneError, 1)
      else ((a % 8) * 262144 + (t.getD 0 0 % 64) * 4096 + (t.getD 1 0 % 64) * 64
        + t.getD 2 0 % 64, 4) := by
  have hsz := first_cases a
  have hr := accept_range (first a / 16)
  have h0 : ¬ (first a ≥ 0xF0) := by omega
  unfold DecodeRuneInString
  simp only [h0, if_false, List.getD_cons_succ, List.length_cons]
  generalize first a % 8 = sz at *
  generalize acceptLo (first a / 16) = lo at *
  generalize acceptHi (first a / 16) = hi at *
  by_cases hlen : t.length + 1 < sz
  · rw [if_pos hlen]
    rcases t with _ | ⟨c1, _ | ⟨c2, _ | ⟨c3, t3⟩⟩⟩
    · have : (0 : Nat) < lo := by omega
      simp [this]
    · simp only [List.length_cons, List.length_nil] at hlen
      have h2 : ¬ sz ≤ 2 := by omega
      simp [h2]
    · simp only [List.length_cons, List.length_nil] at hlen
      have h2 : ¬ sz ≤ 2 := by omega
      have h3 : ¬ sz ≤ 3 := by omega
      simp [h2, h3]
    · simp only [List.length_cons] at hlen
      omega
  · rw [if_neg hlen]

theorem decode_invalid (a : Nat) (t : Bytes) (h : first a = 0xF1) :
    DecodeRuneInString (a :: t) = (RuneError, 1) := by
  simp [DecodeRuneInString, h]

theorem decode_ascii (b : Nat) (t : Bytes) (h : b < 128) :
    DecodeRuneInString (b :: t) = (b, 1) := by
  simp [DecodeRuneInString, first, h]

/-- Bytes after a truncated or broken encoding do not repair it when they start with a byte
that is not a continuation byte. -/
theorem decode_append (x y : Bytes) (hx : x ≠ [])
    (hy : ¬ (128 ≤ y.getD 0 0 ∧ y.getD 0 0 ≤ 191)) :
    DecodeRuneInString (x ++ y) = DecodeRuneInString x := by
  obtain ⟨a, t, rfl⟩ := List.exists_cons_of_ne_nil hx
  rcases first_cases a with ⟨_, h1⟩ | ⟨h1, _⟩ | ⟨h1, h2, h3, _⟩
  · rw [List.cons_append, decode_ascii a _ h1, decode_ascii a _ h1]
  · rw [List.cons_append, decode_invalid a _ h1, decode_invalid a _ h1]
  · rw [List.cons_append, decode_lead a _ h1, decode_lead a _ h1]
    have hr := accept_range (first a / 16)
    generalize first a % 8 = sz at *
    generalize acceptLo (first a / 16) = lo at *
    generalize acceptHi (first a / 16) = hi at *
    generalize hc : y.getD 0 0 = c at hy
    rcases t with _ | ⟨c1, _ | ⟨c2, _ | ⟨c3, t3⟩⟩⟩
    · have e0 : ([] ++ y).getD 0 0 = c := by simpa using hc
      have f1 : c < lo ∨ hi < c := by omega
      have f2 : (0 : Nat) < lo ∨ hi < 0 := by omega
      rw [e0, if_pos f1]
      simp only [List.getD_nil]
      rw [if_pos f2]
    · have e1 : ([c1] ++ y).getD 1 0 = c := by simpa using hc
      have f1 : c < 128 ∨ 191 < c := by omega
      simp only [List.getD_cons_zero, List.cons_append, List.nil_append] at e1 ⊢
      simp only [List.getD_cons_succ] at e1 ⊢
      rw [e1]
      simp only [List.getD_nil]
      by_cases g0 : c1 < lo ∨ hi < c1
      · rw [if_pos g0, if_pos g0]
      · rw [if_neg g0, if_neg g0]
        by_cases g1 : sz ≤ 2
        · rw [if_pos g1, if_pos g1]
        · rw [if_neg g1, if_neg g1, if_pos f1, if_pos (by omega)]
    · have e2 : ([c1, c2] ++ y).getD 2 0 = c := by simpa using hc
      have f1 : c < 128 ∨ 191 < c := by omega
      simp only [List.getD_cons_zero, List.cons_append, List.nil_append] at e2 ⊢
      simp only [List.getD_cons_succ, List.getD_cons_zero] at e2 ⊢
      rw [e2]
      simp only [List.getD_nil]
      by_cases g0 : c1 < lo ∨ hi < c1
      · rw [if_pos g0, if_pos g0]
      · rw [if_neg g0, if_neg g0]
        by_cases g1 : sz ≤ 2
        · rw [if_pos g1, if_pos g1]
        · rw [if_neg g1, if_neg g1]
          by_cases g2 : c2 < 128 ∨ 191 < c2
          · rw [if_pos g2, if_pos g2]
          · rw [if_neg g2, if_neg g2]
            by_cases g3 : sz ≤ 3
            · rw [if_pos g3, if_pos g3]
            · rw [if_neg g3, if_neg g3, if_pos f1, if_pos (by omega)]
    · simp only [List.cons_append, List.getD_cons_succ, List.getD_cons_zero]

theorem decode_size (s : Bytes) (h : s ≠ []) :
    1 ≤ (DecodeRuneInString s).2 ∧ (DecodeRuneInString s).2 ≤ s.length := by
  obtain ⟨a, t, rfl⟩ := List.exists_cons_of_ne_nil h
  rcases first_cases a with ⟨_, h1⟩ | ⟨h1, _⟩ | ⟨h1, h2, h3, _⟩
  · rw [decode_ascii a _ h1]; simp
  · rw [decode_invalid a _ h1]; simp
  · rw [decode_lead a _ h1]
    have hr := accept_range (first a / 16)
    generalize first a % 8 = sz at *
    generalize acceptLo (first a / 16) = lo at *
    generalize acceptHi (first a / 16) = hi at *
    by_cases g0 : t.getD 0 0 < lo ∨ hi < t.getD 0 0
    · rw [if_pos g0]; simp
    rw [if_neg g0]
    rcases t with _ | ⟨c1, t1⟩
    · simp only [List.getD_nil] at g0; omega
    by_cases g1 : sz ≤ 2
    · rw [if_pos g1]; simp
    rw [if_neg g1]
    by_cases g2 : (c1 :: t1).getD 1 0 < 128 ∨ 191 < (c1 :: t1).getD 1 0
    · rw [if_pos g2]; simp
    rw [if_neg g2]
    rcases t1 with _ | ⟨c2, t2⟩
    · simp at g2
    by_cases g3 : sz ≤ 3
    · rw [if_pos g3]; simp
    rw [if_neg g3]
    by_cases g4 : (c1 :: c2 :: t2).getD 2 0 < 128 ∨ 191 < (c1 :: c2 :: t2).getD 2 0
    · rw [if_pos g4]; simp
    rw [if_neg g4]
    rcases t2 with _ | ⟨c3, t3⟩
    · simp at g4
    simp

theorem IsSpace_RuneError : IsSpace RuneError = false := by decide

theorem RuneStart_of_not_cont (a : Nat) (h : a < 128 ∨ (194 ≤ a ∧ a ≤ 244)) :
    RuneStart a = true := by
  unfold RuneStart
  have : a / 64 % 4 ≠ 2 := by omega
  simpa using this

theorem RuneStart_cont (c : Nat) (h : 128 ≤ c ∧ c ≤ 191) : RuneStart c = false := by
  unfold RuneStart
  have : c / 64 % 4 = 2 := by omega
  simp [this]

/-- A white-space rune at the head of `s`: its first byte is not a continuation byte, the others
are, there are at most three of those, and the decoder looks at no byte after them. -/
theorem space_shape (s : Bytes) (h : IsSpace (DecodeRuneInString s).1 = true) :
    ∃ a cs t, s = a :: (cs ++ t) ∧ (DecodeRuneInString s).2 = cs.length + 1 ∧ cs.length ≤ 3 ∧
      (a < 128 ∧ cs = [] ∨ 194 ≤ a ∧ a ≤ 244 ∧ cs ≠ []) ∧ (∀ c ∈ cs, 128 ≤ c ∧ c ≤ 191) ∧
      ∀ z, DecodeRuneInString (a :: (cs ++ z)) = DecodeRuneInString s := by
  rcases s with _ | ⟨a, t⟩
  · simp [DecodeRuneInString, IsSpace_RuneError] at h
  rcases first_cases a with ⟨_, h1⟩ | ⟨h1, _⟩ | ⟨h1, h2, h3, h4, h5⟩
  · refine ⟨a, [], t, rfl, ?_, by simp, Or.inl ⟨h1, rfl⟩, by simp, ?_⟩
    · rw [decode_ascii a _ h1]; rfl
    · intro z; rw [decode_ascii a _ h1, decode_ascii a _ h1]
  · rw [decode_invalid a _ h1, IsSpace_RuneError] at h
    exact absurd h (by simp)
  · have hl : ∀ cs : Bytes, cs ≠ [] → (a < 128 ∧ cs = [] ∨ 194 ≤ a ∧ a ≤ 244 ∧ cs ≠ []) :=
      fun cs hcs => Or.inr ⟨h4, h5, hcs⟩
    have key : ∀ z, DecodeRuneInString (a :: z) = _ := fun z => decode_lead a z h1
    rw [key t] at h
    have hr := accept_range (first a / 16)
    generalize first a % 8 = sz at *
    generalize acceptLo (first a / 16) = lo at *
    generalize acceptHi (first a / 16) = hi at *
    by_cases g0 : t.getD 0 0 < lo ∨ hi < t.getD 0 0
    · rw [if_pos g0, IsSpace_RuneError] at h; exact absurd h (by simp)
    rw [if_neg g0] at h
    rcases t with _ | ⟨c1, t1⟩
    · simp only [List.getD_nil] at g0; omega
    simp only [List.getD_cons_zero] at g0 h
    by_cases g1 : sz ≤ 2
    · refine ⟨a, [c1], t1, rfl, ?_, by simp, hl _ (by simp), ?_, ?_⟩
      · rw [key]; simp [if_neg g0, if_pos g1]
      · intro c hc; simp at hc; subst hc; omega
      · intro z; rw [key, key]; simp [if_neg g0, if_pos g1]
    rw [if_neg g1] at h
    by_cases g2 : (c1 :: t1).getD 1 0 < 128 ∨ 191 < (c1 :: t1).getD 1 0
    · rw [if_pos g2, IsSpace_RuneError] at h; exact absurd h (by simp)
    rw [if_neg g2] at h
    rcases t1 with _ | ⟨c2, t2⟩
    · simp at g2
    simp only [List.getD_cons_succ, List.getD_cons_zero] at g2 h
    by_cases g3 : sz ≤ 3
    · refine ⟨a, [c1, c2], t2, rfl, ?_, by simp, hl _ (by simp), ?_, ?_⟩
      · rw [key]; simp [if_neg g0, if_neg g1, if_neg g2, if_pos g3]
      · intro c hc; simp at hc; rcases hc with rfl | rfl <;> omega
      · intro z; rw [key, key]; simp [if_neg g0, if_neg g1, if_neg g2, if_pos g3]
    rw [if_neg g3] at h
    by_cases g4 : t2.getD 0 0 < 128 ∨ 191 < t2.getD 0 0
    · rw [if_pos g4, IsSpace_RuneError] at h; exact absurd h (by simp)
    rcases t2 with _ | ⟨c3, t3⟩
    · simp at g4
    simp only [List.getD_cons_zero] at g4
    refine ⟨a, [c1, c2, c3], t3, rfl, ?_, by simp, hl _ (by simp), ?_, ?_⟩
    · rw [key]; simp [if_neg g0, if_neg g1, if_neg g2, if_neg g3, if_neg g4]
    · intro c hc; simp at hc; rcases hc with rfl | rfl | rfl <;> omega
    · intro z; rw [key, key]; simp [if_neg g0, if_neg g1, if_neg g2, if_neg g3, if_neg g4]

/-! ### White-space runes and `TrimLeftFunc` -/

theorem spaceLen_nil : spaceLen [] = 0 := by decide

theorem spaceLen_le (s : Bytes) : spaceLen s ≤ s.length := by
  unfold spaceLen
  by_cases hs : s = []
  · subst hs; decide
  · split
    · exact (decode_size s hs).2
    · omega

theorem spaceLen_pos_iff (s : Bytes) :
    0 < spaceLen s ↔ IsSpace (DecodeRuneInString s).1 = true := by
  unfold spaceLen
  by_cases h : IsSpace (DecodeRuneInString s).1 = true
  · have hs : s ≠ [] := by
      rintro rfl
      simp [DecodeRuneInString, IsSpace_RuneError] at h
    simp only [h, if_true, iff_true]
    exact (decode_size s hs).1
  · simp [h]

theorem spaceLen_shape (s : Bytes) (h : 0 < spaceLen s) :
    ∃ a cs t, s = a :: (cs ++ t) ∧ spaceLen s = cs.length + 1 ∧ cs.length ≤ 3 ∧
      (a < 128 ∧ cs = [] ∨ 194 ≤ a ∧ a ≤ 244 ∧ cs ≠ []) ∧ (∀ c ∈ cs, 128 ≤ c ∧ c ≤ 191) ∧
      ∀ z, spaceLen (a :: (cs ++ z)) = cs.length + 1 := by
  have hsp := (spaceLen_pos_iff s).1 h
  obtain ⟨a, cs, t, e, hk, h3, ha, hc, hz⟩ := space_shape s hsp
  refine ⟨a, cs, t, e, ?_, h3, ha, hc, ?_⟩
  · simp [spaceLen, hsp, hk]
  · intro z
    simp [spaceLen, hz z, hsp, hk]

/-- A word: the encoding of one white-space rune. -/
theorem word_append (w z : Bytes) (hne : w ≠ []) (hw : spaceLen w = w.length) :
    spaceLen (w ++ z) = w.length := by
  have hpos : 0 < spaceLen w := by
    rw [hw]; exact List.length_pos.2 hne
  obtain ⟨a, cs, t, e, hk, _, _, _, hz⟩ := spaceLen_shape w hpos
  have ht : t = [] := by
    have h1 := congrArg List.length e
    simp only [List.length_cons, List.length_append] at h1
    exact List.eq_nil_of_length_eq_zero (by omega)
  subst ht
  subst e
  simpa using hz z

theorem word_of_spaceLen (s : Bytes) (h : 0 < spaceLen s) :
    s.take (spaceLen s) ≠ [] ∧ spaceLen (s.take (spaceLen s)) = (s.take (spaceLen s)).length := by
  obtain ⟨a, cs, t, e, hk, _, _, _, hz⟩ := spaceLen_shape s h
  have ht : s.take (spaceLen s) = a :: cs := by
    rw [hk, e]; simp [List.take_succ_cons, List.take_append_of_le_length]
  rw [ht]
  refine ⟨by simp, ?_⟩
  simpa using hz []

theorem word_head (w : Bytes) (hne : w ≠ []) (hw : spaceLen w = w.length) :
    ¬ (128 ≤ w.getD 0 0 ∧ w.getD 0 0 ≤ 191) := by
  have hpos : 0 < spaceLen w := by
    rw [hw]; exact List.length_pos.2 hne
  obtain ⟨a, cs, t, e, _, _, ha, _, _⟩ := spaceLen_shape w hpos
  subst e
  simp only [List.getD_cons_zero]
  omega

theorem AllSpace_head (s : Bytes) (h : AllSpace s) :
    ¬ (128 ≤ s.getD 0 0 ∧ s.getD 0 0 ≤ 191) := by
  cases h with
  | nil => simp
  | cons w s hne hw _ =>
    have := word_head w hne hw
    obtain ⟨a, t, rfl⟩ := List.exists_cons_of_ne_nil hne
    simpa using this

theorem AllSpace_append (x y : Bytes) (hx : AllSpace x) (hy : AllSpace y) : AllSpace (x ++ y) := by
  induction hx with
  | nil => simpa using hy
  | cons w s hne hw _ ih =>
    rw [List.append_assoc]
    exact AllSpace.cons w (s ++ y) hne hw ih

theorem AllSpace_word (w : Bytes) (hne : w ≠ []) (hw : spaceLen w = w.length) : AllSpace w := by
  have := AllSpace.cons w [] hne hw AllSpace.nil
  simpa using this

theorem trimLeftLoop_fuel (f1 f2 : Nat) (s : Bytes) (h1 : s.length ≤ f1) (h2 : s.length ≤ f2) :
    trimLeftLoop f1 s = trimLeftLoop f2 s := by
  induction f1 generalizing f2 s with
  | zero =>
    have : s = [] := List.eq_nil_of_length_eq_zero (by omega)
    subst this
    cases f2 <;> rfl
  | succ n ih =>
    cases s with
    | nil => cases f2 <;> rfl
    | cons b t =>
      cases f2 with
      | zero => simp at h2
      | succ m =>
        have hsz := decode_size (b :: t) (by simp)
        simp only [trimLeftLoop]
        split
        · apply ih
          · simp only [List.length_drop, List.length_cons] at *; omega
          · simp only [List.length_drop, List.length_cons] at *; omega
        · rfl

theorem TrimLeftFunc_unfold (s : Bytes) :
    TrimLeftFunc s = if 0 < spaceLen s then TrimLeftFunc (s.drop (spaceLen s)) else s := by
  cases s with
  | nil => decide
  | cons b t =>
    have hsz := decode_size (b :: t) (by simp)
    unfold TrimLeftFunc
    simp only [List.length_cons, trimLeftLoop]
    by_cases h : IsSpace (DecodeRuneInString (b :: t)).1 = true
    · have hp := (spaceLen_pos_iff (b :: t)).2 h
      have hk : spaceLen (b :: t) = (DecodeRuneInString (b :: t)).2 := by simp [spaceLen, h]
      rw [if_pos h, if_pos hp, hk]
      apply trimLeftLoop_fuel
      · simp only [List.length_drop, List.length_cons]; omega
      · exact Nat.le_refl _
    · have hp : ¬ 0 < spaceLen (b :: t) := fun hp => h ((spaceLen_pos_iff _).1 hp)
      rw [if_neg h, if_neg hp]

theorem TrimLeftFunc_of_zero (s : Bytes) (h : spaceLen s = 0) : TrimLeftFunc s = s := by
  rw [TrimLeftFunc_unfold, if_neg (by omega)]

theorem TrimLeftFunc_word (w s : Bytes) (hne : w ≠ []) (hw : spaceLen w = w.length) :
    TrimLeftFunc (w ++ s) = TrimLeftFunc s := by
  have hk := word_append w s hne hw
  have hpos : 0 < w.length := List.length_pos.2 hne
  rw [TrimLeftFunc_unfold, hk, if_pos hpos, List.drop_left]

theorem TrimLeftFunc_allSpace (a s : Bytes) (ha : AllSpace a) :
    TrimLeftFunc (a ++ s) = TrimLeftFunc s := by
  induction ha with
  | nil => rfl
  | cons w x hne hw _ ih => rw [List.append_assoc, TrimLeftFunc_word w _ hne hw, ih]

/-- What `TrimLeftFunc` removes is white space, and what it leaves starts with none. -/
theorem TrimLeftFunc_spec (s : Bytes) :
    ∃ a, s = a ++ TrimLeftFunc s ∧ AllSpace a ∧ spaceLen (TrimLeftFunc s) = 0 := by
  generalize hn : s.length = n
  induction n using Nat.strong_induction_on generalizing s with
  | _ n ih =>
    by_cases hp : 0 < spaceLen s
    · obtain ⟨hne, hw⟩ := word_of_spaceLen s hp
      have hle := spaceLen_le s
      obtain ⟨a, e, ha, hz⟩ := ih (s.drop (spaceLen s)).length
        (by simp only [List.length_drop]; omega) (s.drop (spaceLen s)) rfl
      rw [TrimLeftFunc_unfold s, if_pos hp]
      refine ⟨s.take (spaceLen s) ++ a, ?_, AllSpace_append _ _ (AllSpace_word _ hne hw) ha, hz⟩
      rw [List.append_assoc, ← e, List.take_append_drop]
    · have h0 : spaceLen s = 0 := by omega
      rw [TrimLeftFunc_of_zero s h0]
      exact ⟨[], rfl, AllSpace.nil, h0⟩

/-! ### The backward decoder -/

theorem getD_append_right (z y : Bytes) (j : Nat) :
    (z ++ y).getD (z.length + j) 0 = y.getD j 0 := by
  induction z with
  | nil => simp
  | cons b z ih =>
    simp only [List.cons_append, List.length_cons]
    have : z.length + 1 + j = (z.length + j) + 1 := by omega
    rw [this, List.getD_cons_succ, ih]

theorem getD_append_left (z y : Bytes) (j : Nat) (h : j < z.length) :
    (z ++ y).getD j 0 = z.getD j 0 := by
  induction z generalizing j with
  | nil => simp at h
  | cons b z ih =>
    cases j with
    | zero => simp
    | succ j =>
      simp only [List.cons_append, List.getD_cons_succ]
      exact ih j (by simpa using h)

theorem drop_last (s : Bytes) (h : s ≠ []) :
    s.drop (s.length - 1) = [s.getD (s.length - 1) 0] := by
  induction s with
  | nil => exact absurd rfl h
  | cons b t ih =>
    cases t with
    | nil => simp
    | cons c u =>
      have := ih (by simp)
      simp only [List.length_cons, Nat.add_sub_cancel] at this ⊢
      rw [List.drop_succ_cons, List.getD_cons_succ]
      exact this

theorem scanStart_le (s : Bytes) (lim n : Nat) : scanStart s lim n ≤ n - 1 := by
  induction n with
  | zero => simp [scanStart]
  | succ st ih =>
    unfold scanStart
    split
    · simp
    · split
      · simp
      · simp only [Nat.add_sub_cancel]; omega

/-- The three ways `DecodeLastRuneInString` returns on a string that is not empty. -/
theorem DecodeLast_cases (s : Bytes) (hs : s ≠ []) :
    (s.getD (s.length - 1) 0 < 128 ∧
      DecodeLastRuneInString s = (s.getD (s.length - 1) 0, 1)) ∨
    (128 ≤ s.getD (s.length - 1) 0 ∧ DecodeLastRuneInString s = (RuneError, 1)) ∨
    (128 ≤ s.getD (s.length - 1) 0 ∧
      scanStart s (s.length - 4) (s.length - 1)
        + (DecodeRuneInString (s.drop (scanStart s (s.length - 4) (s.length - 1)))).2
        = s.length ∧
      DecodeLastRuneInString s
        = DecodeRuneInString (s.drop (scanStart s (s.length - 4) (s.length - 1)))) := by
  have hlen : 0 < s.length := List.length_pos.2 hs
  unfold DecodeLastRuneInString
  rw [if_neg (by omega)]
  simp only [RuneSelf]
  by_cases h1 : s.getD (s.length - 1) 0 < 128
  · rw [if_pos h1]
    exact Or.inl ⟨h1, rfl⟩
  · rw [if_neg h1]
    by_cases h2 : scanStart s (s.length - 4) (s.length - 1)
          + (DecodeRuneInString (s.drop (scanStart s (s.length - 4) (s.length - 1)))).2
        ≠ s.length
    · rw [if_pos h2]
      exact Or.inr (Or.inl ⟨by omega, rfl⟩)
    · rw [if_neg h2]
      exact Or.inr (Or.inr ⟨by omega, by simpa using h2, rfl⟩)

theorem DecodeLast_size (s : Bytes) (h : s ≠ []) :
    1 ≤ (DecodeLastRuneInString s).2 ∧ (DecodeLastRuneInString s).2 ≤ s.length := by
  have hlen : 0 < s.length := List.length_pos.2 h
  rcases DecodeLast_cases s h with ⟨_, e⟩ | ⟨_, e⟩ | ⟨_, h2, e⟩
  · rw [e]; simp; omega
  · rw [e]; simp; omega
  · rw [e]
    have hst := scanStart_le s (s.length - 4) (s.length - 1)
    have hd := decode_size (s.drop (scanStart s (s.length - 4) (s.length - 1)))
      (by
        intro hnil
        have := congrArg List.length hnil
        simp only [List.length_drop, List.length_nil] at this
        omega)
    omega

theorem lastSpaceLen_pos_iff (s : Bytes) :
    0 < lastSpaceLen s ↔ IsSpace (DecodeLastRuneInString s).1 = true := by
  unfold lastSpaceLen
  by_cases h : IsSpace (DecodeLastRuneInString s).1 = true
  · have hs : s ≠ [] := by
      rintro rfl
      revert h; decide
    simp only [h, if_true, iff_true]
    exact (DecodeLast_size s hs).1
  · simp [h]

/-- The rune the backward decoder finds at the end of `s`, when white space, is the one the
forward decoder finds in the last bytes of `s`. -/
theorem lastSpaceLen_word (s : Bytes) (h : 0 < lastSpaceLen s) :
    lastSpaceLen s ≤ s.length ∧
    spaceLen (s.drop (s.length - lastSpaceLen s)) = lastSpaceLen s := by
  have hsp := (lastSpaceLen_pos_iff s).1 h
  have hs : s ≠ [] := by
    rintro rfl
    revert h; decide
  have hk : lastSpaceLen s = (DecodeLastRuneInString s).2 := by simp [lastSpaceLen, hsp]
  refine ⟨by rw [hk]; exact (DecodeLast_size s hs).2, ?_⟩
  rw [hk]
  rcases DecodeLast_cases s hs with ⟨h1, e⟩ | ⟨_, e⟩ | ⟨_, h2, e⟩
  · rw [e] at hsp ⊢
    simp only at hsp ⊢
    rw [drop_last s hs]
    unfold spaceLen
    rw [decode_ascii _ _ h1]
    simp only [hsp, if_true]
  · rw [e, IsSpace_RuneError] at hsp
    exact absurd hsp (by simp)
  · rw [e] at hsp ⊢
    have e2 : s.length - (DecodeRuneInString
        (s.drop (scanStart s (s.length - 4) (s.length - 1)))).2
        = scanStart s (s.length - 4) (s.length - 1) := by omega
    rw [e2]
    simp [spaceLen, hsp]

theorem scanStart_word (z cs : Bytes) (a lim : Nat) (ha : RuneStart a = true)
    (hc : ∀ c ∈ cs, RuneStart c = false) (hlim : lim ≤ z.length) (j : Nat) (hj : j ≤ cs.length) :
    scanStart (z ++ a :: cs) lim (z.length + j + 1) = z.length := by
  induction j with
  | zero =>
    unfold scanStart
    have e : (z ++ a :: cs).getD z.length 0 = a := by
      have := getD_append_right z (a :: cs) 0
      simpa using this
    rw [if_neg (by omega), e, if_pos ha]
  | succ j ih =>
    have hjl : j < cs.length := by omega
    have e : (z ++ a :: cs).getD (z.length + (j + 1)) 0 = cs.getD j 0 := by
      rw [getD_append_right]; rfl
    have hmem : cs.getD j 0 ∈ cs := by
      rw [List.getD_eq_getElem _ _ hjl]
      exact List.getElem_mem _
    have hcj : RuneStart (cs.getD j 0) = false := hc _ hmem
    rw [scanStart]
    rw [if_neg (by omega), e, hcj]
    simp only [Bool.false_eq_true, if_false]
    exact ih (by omega)

/-- The backward decoder finds a white-space rune that ends `z ++ w`. -/
theorem lastSpaceLen_append_word (z w : Bytes) (hne : w ≠ []) (hw : spaceLen w = w.length) :
    lastSpaceLen (z ++ w) = w.length := by
  have hpos : 0 < spaceLen w := by
    rw [hw]; exact List.length_pos.2 hne
  have hsp := (spaceLen_pos_iff w).1 hpos
  have hk : (DecodeRuneInString w).2 = w.length := by
    rw [← hw]; simp [spaceLen, hsp]
  obtain ⟨a, cs, t, e, hk', h3, ha, hc, _⟩ := spaceLen_shape w hpos
  have ht : t = [] := by
    have h1 := congrArg List.length e
    simp only [List.length_cons, List.length_append] at h1
    exact List.eq_nil_of_length_eq_zero (by omega)
  subst ht
  simp only [List.append_nil] at e
  subst e
  have hzne : z ++ a :: cs ≠ [] := by simp
  have hlast : (z ++ a :: cs).getD ((z ++ a :: cs).length - 1) 0 = (a :: cs).getD cs.length 0 := by
    have := getD_append_right z (a :: cs) cs.length
    rw [← this]
    congr 1
    simp
  rcases ha with ⟨ha, hcs⟩ | ⟨ha1, ha2, hcs⟩
  · subst hcs
    rcases DecodeLast_cases _ hzne with ⟨h1, e⟩ | ⟨h1, _⟩ | ⟨h1, _, _⟩
    · rw [hlast] at e
      rw [decode_ascii a _ ha] at hsp
      simp only [List.length_nil, List.getD_cons_zero] at e
      unfold lastSpaceLen
      rw [e]
      simp only at hsp ⊢
      simp [hsp]
    · rw [hlast] at h1; simp at h1; omega
    · rw [hlast] at h1; simp at h1; omega
  · have hrs : RuneStart a = true := RuneStart_of_not_cont a (Or.inr ⟨ha1, ha2⟩)
    have hcr : ∀ c ∈ cs, RuneStart c = false := fun c hc' => RuneStart_cont c (hc c hc')
    have hcl : 0 < cs.length := List.length_pos.2 hcs
    have hscan : scanStart (z ++ a :: cs) ((z ++ a :: cs).length - 4) ((z ++ a :: cs).length - 1)
        = z.length := by
      have := scanStart_word z cs a ((z ++ a :: cs).length - 4) hrs hcr
        (by simp only [List.length_append, List.length_cons]; omega) (cs.length - 1) (by omega)
      have e2 : (z ++ a :: cs).length - 1 = z.length + (cs.length - 1) + 1 := by
        simp only [List.length_append, List.length_cons]; omega
      rw [e2]; exact this
    have hlastc : 128 ≤ (a :: cs).getD cs.length 0 := by
      obtain ⟨j, hj⟩ : ∃ j, cs.length = j + 1 := ⟨cs.length - 1, by omega⟩
      rw [hj, List.getD_cons_succ, List.getD_eq_getElem _ _ (by omega)]
      exact (hc _ (List.getElem_mem _)).1
    rcases DecodeLast_cases _ hzne with ⟨h1, _⟩ | ⟨_, e⟩ | ⟨_, _, e⟩
    · rw [hlast] at h1; omega
    · exfalso
      revert e
      unfold DecodeLastRuneInString
      rw [if_neg (by simp)]
      simp only [RuneSelf]
      rw [hlast, if_neg (by omega), hscan, List.drop_left, hk]
      simp only [List.length_append, ne_eq, not_true_eq_false, if_false]
      intro e
      rw [e, IsSpace_RuneError] at hsp
      exact absurd hsp (by simp)
    · rw [hscan, List.drop_left] at e
      unfold lastSpaceLen
      rw [e, hsp, if_pos rfl, hk]

/-! ### `TrimRightFunc` -/

theorem lastIndexLoop_append (s y : Bytes) (f1 f2 i : Nat) (hi : i ≤ s.length) (h1 : i ≤ f1)
    (h2 : i ≤ f2) : lastIndexLoop (s ++ y) f1 i = lastIndexLoop s f2 i := by
  induction f1 generalizing f2 i with
  | zero =>
    have : i = 0 := by omega
    subst this
    cases f2 <;> simp [lastIndexLoop]
  | succ n ih =>
    by_cases h0 : i = 0
    · subst h0
      cases f2 <;> simp [lastIndexLoop]
    · cases f2 with
      | zero => omega
      | succ m =>
        have ht : (s ++ y).take i = s.take i := List.take_append_of_le_length hi
        have hne : s.take i ≠ [] := by
          intro hnil
          have := congrArg List.length hnil
          simp only [List.length_take, List.length_nil] at this
          omega
        have hsz := DecodeLast_size (s.take i) hne
        simp only [lastIndexLoop, if_neg h0, ht]
        split
        · exact ih _ _ (by omega) (by omega) (by omega)
        · rfl

theorem lastIndexLoop_range (s : Bytes) (f i : Nat) (hi : i ≤ s.length) :
    -1 ≤ lastIndexLoop s f i ∧ lastIndexLoop s f i < (i : Int) ∨
    (i = 0 ∧ lastIndexLoop s f i = -1) := by
  induction f generalizing i with
  | zero => simp only [lastIndexLoop]; omega
  | succ n ih =>
    by_cases h0 : i = 0
    · right; exact ⟨h0, by simp [lastIndexLoop, h0]⟩
    · left
      have hne : s.take i ≠ [] := by
        intro hnil
        have := congrArg List.length hnil
        simp only [List.length_take, List.length_nil] at this
        omega
      have hsz := DecodeLast_size (s.take i) hne
      simp only [lastIndexLoop, if_neg h0]
      split
      · rcases ih (i - (DecodeLastRuneInString (s.take i)).2) (by omega) with h | ⟨_, h⟩ <;> omega
      · omega

theorem lastIndexFunc_range (s : Bytes) :
    -1 ≤ lastIndexFunc s ∧ (lastIndexFunc s < (s.length : Int) ∨ lastIndexFunc s = -1) := by
  unfold lastIndexFunc
  rcases lastIndexLoop_range s s.length s.length (Nat.le_refl _) with h | ⟨_, h⟩ <;> omega

/-- What the forward decoder reads at the index the backward decoder stopped at. -/
theorem DecodeLast_forward (s : Bytes) (hs : s ≠ []) :
    (s.getD (s.length - (DecodeLastRuneInString s).2) 0 < 128 →
      (DecodeLastRuneInString s).2 = 1) ∧
    (128 ≤ s.getD (s.length - (DecodeLastRuneInString s).2) 0 →
      ∀ y : Bytes, ¬ (128 ≤ y.getD 0 0 ∧ y.getD 0 0 ≤ 191) →
        (DecodeRuneInString (s.drop (s.length - (DecodeLastRuneInString s).2) ++ y)).2
          = (DecodeLastRuneInString s).2) := by
  have hlen : 0 < s.length := List.length_pos.2 hs
  rcases DecodeLast_cases s hs with ⟨h1, e⟩ | ⟨h1, e⟩ | ⟨h1, h2, e⟩
  · rw [e]
    exact ⟨fun _ => rfl, fun h => by simp only at h; omega⟩
  · rw [e]
    refine ⟨fun _ => rfl, fun _ y hy => ?_⟩
    simp only
    rw [drop_last s hs, decode_append _ y (by simp) hy]
    have := decode_size [s.getD (s.length - 1) 0] (by simp)
    simp only [List.length_singleton] at this
    omega
  · have hst := scanStart_le s (s.length - 4) (s.length - 1)
    have hdne : s.drop (scanStart s (s.length - 4) (s.length - 1)) ≠ [] := by
      intro hnil
      have := congrArg List.length hnil
      simp only [List.length_drop, List.length_nil] at this
      omega
    have e2 : s.length - (DecodeLastRuneInString s).2
        = scanStart s (s.length - 4) (s.length - 1) := by rw [e]; omega
    rw [e2]
    constructor
    · intro hlt
      obtain ⟨a, t, hat⟩ := List.exists_cons_of_ne_nil hdne
      have ha : a = s.getD (scanStart s (s.length - 4) (s.length - 1)) 0 := by
        have h3 := congrArg (fun l => l.getD 0 0) hat
        simp only [List.getD_cons_zero] at h3
        rw [← h3]
        simp [List.getD_eq_getElem?_getD]
      rw [e, hat, decode_ascii a t (by omega)]
    · intro _ y hy
      rw [decode_append _ y hdne hy, e]

theorem not_space_of_zero (s : Bytes) (h : lastSpaceLen s = 0) :
    ¬ IsSpace (DecodeLastRuneInString s).1 = true := fun hsp => by
  have := (lastSpaceLen_pos_iff s).2 hsp
  omega

theorem TrimRightFunc_of_zero (s : Bytes) (h : lastSpaceLen s = 0) : TrimRightFunc s = s := by
  by_cases hs : s = []
  · subst hs; decide
  have hlen : 0 < s.length := List.length_pos.2 hs
  have hsz := DecodeLast_size s hs
  obtain ⟨ha, hb⟩ := DecodeLast_forward s hs
  have hi : lastIndexFunc s = ((s.length - (DecodeLastRuneInString s).2 : Nat) : Int) := by
    unfold lastIndexFunc
    obtain ⟨n, hn⟩ : ∃ n, s.length = n + 1 := ⟨s.length - 1, by omega⟩
    rw [hn, lastIndexLoop, if_neg (by omega), ← hn, List.take_length]
    simp only [not_space_of_zero s h, if_false]
    simp
  unfold TrimRightFunc
  simp only [hi, Int.toNat_ofNat, RuneSelf]
  by_cases hc : 128 ≤ s.getD (s.length - (DecodeLastRuneInString s).2) 0
  · rw [if_pos ⟨by omega, hc⟩]
    have := hb hc [] (by simp)
    rw [List.append_nil] at this
    rw [this]
    exact List.take_of_length_le (by omega)
  · rw [if_neg (fun hh => hc hh.2)]
    have := ha (by omega)
    exact List.take_of_length_le (by omega)

theorem TrimRightFunc_word (s w : Bytes) (hne : w ≠ []) (hw : spaceLen w = w.length) :
    TrimRightFunc (s ++ w) = TrimRightFunc s := by
  have hwl : 0 < w.length := List.length_pos.2 hne
  have hk := lastSpaceLen_append_word s w hne hw
  have hsp := (lastSpaceLen_pos_iff (s ++ w)).1 (by omega)
  have hk2 : (DecodeLastRuneInString (s ++ w)).2 = w.length := by
    rw [← hk]; simp [lastSpaceLen, hsp]
  have hi : lastIndexFunc (s ++ w) = lastIndexFunc s := by
    unfold lastIndexFunc
    obtain ⟨n, hn⟩ : ∃ n, (s ++ w).length = n + 1 :=
      ⟨(s ++ w).length - 1, by simp only [List.length_append]; omega⟩
    rw [hn, lastIndexLoop, if_neg (by omega), ← hn, List.take_length]
    simp only [hsp, if_true, hk2, List.length_append, Nat.add_sub_cancel]
    apply lastIndexLoop_append _ _ _ _ _ (Nat.le_refl _) _ (Nat.le_refl _)
    simp only [List.length_append] at hn
    omega
  have hr := lastIndexFunc_range s
  unfold TrimRightFunc
  simp only [hi]
  by_cases h0 : 0 ≤ lastIndexFunc s
  · obtain ⟨j, hj⟩ : ∃ j : Nat, lastIndexFunc s = (j : Int) := ⟨(lastIndexFunc s).toNat, by omega⟩
    have hjl : j < s.length := by omega
    have hdne : s.drop j ≠ [] := by
      intro hnil
      have := congrArg List.length hnil
      simp only [List.length_drop, List.length_nil] at this
      omega
    have hd := decode_size (s.drop j) hdne
    simp only [List.length_drop] at hd
    simp only [hj, Int.toNat_ofNat]
    rw [getD_append_left s w j hjl, List.drop_append_of_le_length (by omega),
      decode_append _ w hdne (word_head w hne hw)]
    have e3 : ((j : Int) + 1).toNat = j + 1 := by omega
    rw [e3]
    split
    · exact List.take_append_of_le_length (by omega)
    · exact List.take_append_of_le_length (by omega)
  · have hm : lastIndexFunc s = -1 := by omega
    simp [hm]

theorem TrimRightFunc_allSpace (s b : Bytes) (hb : AllSpace b) :
    TrimRightFunc (s ++ b) = TrimRightFunc s := by
  induction hb generalizing s with
  | nil => simp
  | cons w x hne hw _ ih => rw [← List.append_assoc, ih, TrimRightFunc_word s w hne hw]

/-- What `TrimRightFunc` removes is white space, and what it leaves ends with none. -/
theorem TrimRightFunc_spec (s : Bytes) :
    ∃ b, s = TrimRightFunc s ++ b ∧ AllSpace b ∧ lastSpaceLen (TrimRightFunc s) = 0 := by
  generalize hn : s.length = n
  induction n using Nat.strong_induction_on generalizing s with
  | _ n ih =>
    by_cases hp : 0 < lastSpaceLen s
    · obtain ⟨hle, hw⟩ := lastSpaceLen_word s hp
      have hsplit : s = s.take (s.length - lastSpaceLen s) ++ s.drop (s.length - lastSpaceLen s) :=
        (List.take_append_drop _ _).symm
      have hwl : (s.drop (s.length - lastSpaceLen s)).length = lastSpaceLen s := by
        simp only [List.length_drop]; omega
      have hwne : s.drop (s.length - lastSpaceLen s) ≠ [] := by
        intro hnil
        rw [hnil] at hwl
        simp only [List.length_nil] at hwl
        omega
      have hww : spaceLen (s.drop (s.length - lastSpaceLen s))
          = (s.drop (s.length - lastSpaceLen s)).length := by rw [hw, hwl]
      obtain ⟨b, e, hb, hz⟩ := ih (s.take (s.length - lastSpaceLen s)).length
        (by simp only [List.length_take]; omega) (s.take (s.length - lastSpaceLen s)) rfl
      have htr : TrimRightFunc s = TrimRightFunc (s.take (s.length - lastSpaceLen s)) := by
        conv_lhs => rw [hsplit]
        exact TrimRightFunc_word _ _ hwne hww
      rw [htr]
      refine ⟨b ++ s.drop (s.length - lastSpaceLen s), ?_,
        AllSpace_append _ _ hb (AllSpace_word _ hwne hww), hz⟩
      rw [← List.append_assoc, ← e, List.take_append_drop]
    · have h0 : lastSpaceLen s = 0 := by omega
      rw [TrimRightFunc_of_zero s h0]
      exact ⟨[], by simp, AllSpace.nil, h0⟩

/-! ### `TrimSpace` -/

theorem IsSpace_ascii (c : Nat) (h : c < 128) : IsSpace c = asciiSpace c := by
  unfold IsSpace asciiSpace
  rw [if_pos (by omega)]
  have h1 : (c == 133) = false := by simp; omega
  have h2 : (c == 160) = false := by simp; omega
  simp [h1, h2]

theorem asciiSpace_lt (c : Nat) (h : asciiSpace c = true) : c < 128 := by
  unfold asciiSpace at h
  simp at h
  omega

theorem spaceLen_ascii (c : Nat) (t : Bytes) (h : c < 128) :
    spaceLen (c :: t) = if asciiSpace c then 1 else 0 := by
  unfold spaceLen
  rw [decode_ascii c t h]
  simp only [IsSpace_ascii c h]

theorem lastSpaceLen_ascii (s : Bytes) (c : Nat) (h : c < 128) :
    lastSpaceLen (s ++ [c]) = if asciiSpace c then 1 else 0 := by
  have hl : (s ++ [c]).getD ((s ++ [c]).length - 1) 0 = c := by
    simp
  unfold lastSpaceLen
  rcases DecodeLast_cases (s ++ [c]) (by simp) with ⟨_, e⟩ | ⟨h1, _⟩ | ⟨h1, _, _⟩
  · rw [e, hl]
    simp only [IsSpace_ascii c h]
  · rw [hl] at h1; omega
  · rw [hl] at h1; omega

theorem AllSpace_ascii (c : Nat) (h : asciiSpace c = true) : AllSpace [c] := by
  apply AllSpace_word
  · simp
  · rw [spaceLen_ascii c [] (asciiSpace_lt c h), if_pos h]; rfl

theorem spaceLen_take_zero (u v b : Bytes) (e : u = v ++ b) (h : spaceLen u = 0) :
    spaceLen v = 0 := by
  by_contra hne
  have hp : 0 < spaceLen v := by omega
  obtain ⟨hwne, hw⟩ := word_of_spaceLen v hp
  have hle := spaceLen_le v
  have hk := word_append (v.take (spaceLen v)) (v.drop (spaceLen v) ++ b) hwne hw
  rw [← List.append_assoc, List.take_append_drop, ← e] at hk
  simp only [List.length_take] at hk
  omega

theorem spaceLen_append_zero (u y : Bytes) (hu : u ≠ []) (h : spaceLen u = 0)
    (hy : ¬ (128 ≤ y.getD 0 0 ∧ y.getD 0 0 ≤ 191)) : spaceLen (u ++ y) = 0 := by
  unfold spaceLen at h ⊢
  rw [decode_append u y hu hy]
  exact h

theorem trimSpaceStop_eq (u : Bytes) (k : Nat) (hk : k ≤ u.length) :
    trimSpaceStop u k = TrimRightFunc (u.take k) := by
  induction k with
  | zero => simp only [trimSpaceStop, List.take_zero]; decide
  | succ k ih =>
    have hkl : k < u.length := by omega
    have ht : u.take (k + 1) = u.take k ++ [u.getD k 0] := by
      rw [List.take_succ, List.getD_eq_getElem?_getD, List.getElem?_eq_getElem hkl]
      simp
    simp only [trimSpaceStop, RuneSelf]
    by_cases h1 : 128 ≤ u.getD k 0
    · rw [if_pos h1]
    · rw [if_neg h1]
      by_cases h2 : asciiSpace (u.getD k 0) = true
      · rw [if_pos h2, ih (by omega), ht]
        have hw := AllSpace_ascii _ h2
        exact (TrimRightFunc_allSpace _ _ hw).symm
      · rw [if_neg h2, ht]
        symm
        apply TrimRightFunc_of_zero
        rw [lastSpaceLen_ascii _ _ (by omega), if_neg h2]

/-- The ASCII fast path of `strings.TrimSpace` computes what `TrimFunc` computes. -/
theorem TrimSpace_eq (s : Bytes) : TrimSpace s = TrimRightFunc (TrimLeftFunc s) := by
  induction s with
  | nil => decide
  | cons c rest ih =>
    simp only [TrimSpace, RuneSelf]
    by_cases h1 : 128 ≤ c
    · rw [if_pos h1]; rfl
    · rw [if_neg h1]
      by_cases h2 : asciiSpace c = true
      · rw [if_pos h2, ih]
        have := TrimLeftFunc_allSpace [c] rest (AllSpace_ascii c h2)
        simp only [List.singleton_append] at this
        rw [this]
      · rw [if_neg h2]
        have h0 : spaceLen (c :: rest) = 0 := by
          rw [spaceLen_ascii c rest (by omega), if_neg h2]
        rw [TrimLeftFunc_of_zero _ h0]
        have := trimSpaceStop_eq (c :: rest) (rest.length + 1) (by simp)
        rw [this]
        congr 1
        exact List.take_of_length_le (by simp)

/-- The result of `TrimSpace` sits between two runs of white space and neither starts nor ends
with a white-space rune. -/
theorem TrimSpace_spec (s : Bytes) :
    ∃ a b, s = a ++ TrimSpace s ++ b ∧ AllSpace a ∧ AllSpace b ∧
      spaceLen (TrimSpace s) = 0 ∧ lastSpaceLen (TrimSpace s) = 0 := by
  obtain ⟨a, e1, ha, h1⟩ := TrimLeftFunc_spec s
  obtain ⟨b, e2, hb, h2⟩ := TrimRightFunc_spec (TrimLeftFunc s)
  rw [TrimSpace_eq]
  refine ⟨a, b, ?_, ha, hb, spaceLen_take_zero _ _ b e2 h1, h2⟩
  rw [List.append_assoc, ← e2, ← e1]

theorem TrimSpace_fix (s : Bytes) (h1 : spaceLen s = 0) (h2 : lastSpaceLen s = 0) :
    TrimSpace s = s := by
  rw [TrimSpace_eq, TrimLeftFunc_of_zero s h1, TrimRightFunc_of_zero s h2]

theorem TrimSpace_idem (s : Bytes) : TrimSpace (TrimSpace s) = TrimSpace s := by
  obtain ⟨_, _, _, _, _, h1, h2⟩ := TrimSpace_spec s
  exact TrimSpace_fix _ h1 h2

theorem TrimSpace_allSpace_append (x s : Bytes) (hx : AllSpace x) :
    TrimSpace (x ++ s) = TrimSpace s := by
  rw [TrimSpace_eq, TrimSpace_eq, TrimLeftFunc_allSpace x s hx]

theorem TrimLeftFunc_allSpace_nil (y : Bytes) (hy : AllSpace y) : TrimLeftFunc y = [] := by
  have := TrimLeftFunc_allSpace y [] hy
  rw [List.append_nil] at this
  rw [this]; decide

theorem TrimSpace_of_allSpace (y : Bytes) (hy : AllSpace y) : TrimSpace y = [] := by
  rw [TrimSpace_eq, TrimLeftFunc_allSpace_nil y hy]; decide

theorem TrimSpace_append_allSpace (s y : Bytes) (hy : AllSpace y) :
    TrimSpace (s ++ y) = TrimSpace s := by
  obtain ⟨a, e1, ha, h1⟩ := TrimLeftFunc_spec s
  rw [TrimSpace_eq, TrimSpace_eq]
  by_cases hu : TrimLeftFunc s = []
  · rw [hu] at e1 ⊢
    rw [List.append_nil] at e1
    rw [TrimLeftFunc_allSpace_nil (s ++ y) (by rw [e1]; exact AllSpace_append _ _ ha hy)]
  · have e3 : s ++ y = a ++ (TrimLeftFunc s ++ y) := by
      rw [← List.append_assoc, ← e1]
    rw [e3, TrimLeftFunc_allSpace a _ ha,
      TrimLeftFunc_of_zero _ (spaceLen_append_zero _ y hu h1 (AllSpace_head y hy)),
      TrimRightFunc_allSpace _ y hy]

theorem TrimSpace_eq_nil_iff (s : Bytes) : TrimSpace s = [] ↔ AllSpace s := by
  constructor
  · intro h
    obtain ⟨a, b, e, ha, hb, _, _⟩ := TrimSpace_spec s
    rw [h, List.append_nil] at e
    rw [e]
    exact AllSpace_append _ _ ha hb
  · exact TrimSpace_of_allSpace s

/-! ### `GetLastLine` -/

theorem lastIndexByteLoop_append (s y : Bytes) (c n : Nat) (h : n ≤ s.length) :
    lastIndexByteLoop (s ++ y) c n = lastIndexByteLoop s c n := by
  induction n with
  | zero => rfl
  | succ i ih =>
    simp only [lastIndexByteLoop]
    rw [getD_append_left s y i (by omega), ih (by omega)]

theorem LastIndexByte_snoc (s : Bytes) (b c : Nat) :
    LastIndexByte (s ++ [b]) c = if b = c then (s.length : Int) else LastIndexByte s c := by
  unfold LastIndexByte
  simp only [List.length_append, List.length_singleton, lastIndexByteLoop]
  have e : (s ++ [b]).getD s.length 0 = b := by
    simp
  rw [e, lastIndexByteLoop_append s [b] c s.length (Nat.le_refl _)]

theorem afterLastNewline_snoc (s : Bytes) (b : Nat) :
    afterLastNewline (s ++ [b]) = if b = 10 then [] else afterLastNewline s ++ [b] := by
  unfold afterLastNewline
  simp only [List.reverse_append, List.reverse_singleton, List.singleton_append,
    List.takeWhile_cons]
  by_cases h : b = 10
  · simp [h]
  · simp [h]

/-- The index `LastIndex` finds and the text after the last newline. -/
theorem LastIndexByte_newline (t : Bytes) :
    (10 ∉ t ∧ LastIndexByte t 10 = -1 ∧ afterLastNewline t = t) ∨
    (∃ pos : Nat, LastIndexByte t 10 = (pos : Int) ∧ pos < t.length ∧
      t.drop pos = 10 :: afterLastNewline t) := by
  induction t using List.reverseRecOn with
  | nil => left; exact ⟨by simp, by decide, by decide⟩
  | append_singleton init b ih =>
    rw [LastIndexByte_snoc, afterLastNewline_snoc]
    by_cases hb : b = 10
    · right
      refine ⟨init.length, by rw [if_pos hb], by simp, ?_⟩
      rw [if_pos hb, hb]
      simp
    · rw [if_neg hb, if_neg hb]
      rcases ih with ⟨h1, h2, h3⟩ | ⟨pos, h1, h2, h3⟩
      · left
        refine ⟨?_, h2, by rw [h3]⟩
        simp only [List.mem_append, List.mem_singleton, not_or]
        exact ⟨h1, fun h => hb h.symm⟩
      · right
        refine ⟨pos, h1, by simp only [List.length_append]; omega, ?_⟩
        rw [List.drop_append_of_le_length (by omega), h3]
        rfl

theorem afterLastNewline_not_mem (t : Bytes) : 10 ∉ afterLastNewline t := by
  induction t using List.reverseRecOn with
  | nil => decide
  | append_singleton init b ih =>
    rw [afterLastNewline_snoc]
    by_cases hb : b = 10
    · rw [if_pos hb]; simp
    · rw [if_neg hb]
      simp only [List.mem_append, List.mem_singleton, not_or]
      exact ⟨ih, fun h => hb h.symm⟩

theorem afterLastNewline_of_not_mem (t : Bytes) (h : 10 ∉ t) : afterLastNewline t = t := by
  rcases LastIndexByte_newline t with ⟨_, _, h3⟩ | ⟨pos, _, h2, h3⟩
  · exact h3
  · exfalso
    apply h
    have : 10 ∈ t.drop pos := by rw [h3]; simp
    exact List.mem_of_mem_drop this

theorem afterLastNewline_append (x v : Bytes) (h : 10 ∉ v) :
    afterLastNewline (x ++ 10 :: v) = v := by
  induction v using List.reverseRecOn with
  | nil =>
    have := afterLastNewline_snoc x 10
    simpa using this
  | append_singleton init b ih =>
    simp only [List.mem_append, List.mem_singleton, not_or] at h
    have e : x ++ 10 :: (init ++ [b]) = (x ++ 10 :: init) ++ [b] := by simp
    rw [e, afterLastNewline_snoc, if_neg (fun hb => h.2 hb.symm), ih h.1]

theorem TrimSpace_newline (r : Bytes) : TrimSpace (10 :: r) = TrimSpace r := by
  simp [TrimSpace, RuneSelf, asciiSpace]

theorem GetLastLine_eq (d : DefaultDator) :
    d.GetLastLine = TrimSpace (afterLastNewline (TrimSpace d.Buffer)) := by
  unfold DefaultDator.GetLastLine
  simp only []
  rcases LastIndexByte_newline (TrimSpace d.Buffer) with ⟨_, h2, h3⟩ | ⟨pos, h1, _, h3⟩
  · rw [h2, h3]; simp
  · rw [h1]
    have : ¬ ((pos : Int) = -1) := by omega
    simp only [ne_eq, this, not_false_eq_true, if_true, Int.toNat_ofNat]
    rw [h3, TrimSpace_newline]

theorem TrimSpace_not_mem (s : Bytes) (c : Nat) (h : c ∉ s) : c ∉ TrimSpace s := by
  obtain ⟨a, b, e, _, _, _, _⟩ := TrimSpace_spec s
  intro hc
  apply h
  rw [e]
  simp [hc]

/-- C1: `GetLastLine` returns `TrimSpace(s)` where `t = TrimSpace(content)` and `s` is the part
of `t` after its last newline, all of `t` when it has none; for content without a newline that
is the whole trimmed content. -/
theorem C1_lastLine_algorithm (d : DefaultDator) :
    d.GetLastLine = TrimSpace (afterLastNewline (TrimSpace d.Buffer)) ∧
    (10 ∉ d.Buffer → d.GetLastLine = TrimSpace d.Buffer) := by
  refine ⟨GetLastLine_eq d, fun h => ?_⟩
  rw [GetLastLine_eq, afterLastNewline_of_not_mem _ (TrimSpace_not_mem _ _ h), TrimSpace_idem]

/-- C1 on the content `␣ab␣c␣` without a newline, and its value on `a\n␣b␣\n`. -/
theorem C1_lastLine_algorithm_witness :
    (10 ∉ ((NewDator [110]).Write [32, 97, 98, 32, 99, 32]).1.Buffer) ∧
    (((NewDator [110]).Write [32, 97, 98, 32, 99, 32]).1.GetLastLine
        = TrimSpace (afterLastNewline
            (TrimSpace ((NewDator [110]).Write [32, 97, 98, 32, 99, 32]).1.Buffer)) ∧
      (10 ∉ ((NewDator [110]).Write [32, 97, 98, 32, 99, 32]).1.Buffer →
        ((NewDator [110]).Write [32, 97, 98, 32, 99, 32]).1.GetLastLine
          = TrimSpace ((NewDator [110]).Write [32, 97, 98, 32, 99, 32]).1.Buffer)) ∧
    ((NewDator [110]).Write [32, 97, 98, 32, 99, 32]).1.GetLastLine = [97, 98, 32, 99] ∧
    ((NewDator [110]).Write [97, 10, 32, 98, 32, 10]).1.GetLastLine = [98] :=
  ⟨by decide, C1_lastLine_algorithm _, by decide, by decide⟩

/-! ### Segments -/

theorem AllSpace_inv (s : Bytes) (h : AllSpace s) (hs : s ≠ []) :
    ∃ w x, s = w ++ x ∧ w ≠ [] ∧ spaceLen w = w.length ∧ AllSpace x := by
  cases h with
  | nil => exact absurd rfl hs
  | cons w x hne hw hx => exact ⟨w, x, rfl, hne, hw, hx⟩

theorem runesLoop_allSpace (f : Nat) (s : Bytes) (hf : s.length ≤ f) :
    (runesLoop f s).any (fun r => !IsSpace r) = false ↔ AllSpace s := by
  induction f generalizing s with
  | zero =>
    have : s = [] := List.eq_nil_of_length_eq_zero (by omega)
    subst this
    simp [runesLoop, AllSpace.nil]
  | succ n ih =>
    cases s with
    | nil => simp [runesLoop, AllSpace.nil]
    | cons b t =>
      have hsz := decode_size (b :: t) (by simp)
      have hdl : ((b :: t).drop (DecodeRuneInString (b :: t)).2).length ≤ n := by
        simp only [List.length_drop, List.length_cons] at *; omega
      simp only [runesLoop, List.any_cons, Bool.or_eq_false_iff, Bool.not_eq_false']
      rw [ih _ hdl]
      constructor
      · rintro ⟨h1, h2⟩
        have hp := (spaceLen_pos_iff (b :: t)).2 h1
        have hk : spaceLen (b :: t) = (DecodeRuneInString (b :: t)).2 := by simp [spaceLen, h1]
        obtain ⟨hwne, hw⟩ := word_of_spaceLen (b :: t) hp
        rw [hk] at hwne hw
        have := AllSpace.cons _ _ hwne hw h2
        rwa [List.take_append_drop] at this
      · intro h
        obtain ⟨w, x, e, hne, hw, hx⟩ := AllSpace_inv _ h (by simp)
        have hk := word_append w x hne hw
        rw [← e] at hk
        have hp : 0 < spaceLen (b :: t) := by
          rw [hk]; exact List.length_pos.2 hne
        have h1 := (spaceLen_pos_iff (b :: t)).1 hp
        have hk2 : spaceLen (b :: t) = (DecodeRuneInString (b :: t)).2 := by simp [spaceLen, h1]
        refine ⟨h1, ?_⟩
        rw [← hk2, hk, e, List.drop_left]
        exact hx

theorem hasNonSpace_false_iff (s : Bytes) : hasNonSpace s = false ↔ AllSpace s :=
  runesLoop_allSpace s.length s (Nat.le_refl _)

theorem hasNonSpace_true_iff (s : Bytes) : hasNonSpace s = true ↔ ¬ AllSpace s := by
  rw [← hasNonSpace_false_iff]
  simp

theorem segments_ne_nil (s : Bytes) : segments s ≠ [] := by
  cases s with
  | nil => simp [segments]
  | cons b t =>
    simp only [segments]
    split
    · simp
    · split <;> simp

theorem segments_of_not_mem (q : Bytes) (h : 10 ∉ q) : segments q = [q] := by
  induction q with
  | nil => rfl
  | cons b t ih =>
    simp only [List.mem_cons, not_or] at h
    simp only [segments, if_neg (fun hb : b = 10 => h.1 hb.symm), ih h.2]

theorem segments_append (p q : Bytes) :
    segments (p ++ 10 :: q) = segments p ++ segments q := by
  induction p with
  | nil => simp [segments]
  | cons b t ih =>
    simp only [List.cons_append, segments]
    have ih2 : segments (t.append (10 :: q)) = segments t ++ segments q := ih
    rw [ih2]
    by_cases hb : b = 10
    · simp [hb]
    · simp only [if_neg hb]
      obtain ⟨seg, rest, e⟩ := List.exists_cons_of_ne_nil (segments_ne_nil t)
      rw [e]
      simp

theorem lastSegment_of_not_mem (c : Bytes) (h : 10 ∉ c) :
    lastSegment c = if hasNonSpace c then c else [] := by
  unfold lastSegment
  rw [segments_of_not_mem c h]
  by_cases hc : hasNonSpace c = true
  · simp [hc]
  · simp [hc]

theorem lastSegment_append (p q : Bytes) (h : 10 ∉ q) :
    lastSegment (p ++ 10 :: q) = if hasNonSpace q then q else lastSegment p := by
  unfold lastSegment
  rw [segments_append, segments_of_not_mem q h]
  by_cases hc : hasNonSpace q = true
  · simp [hc]
  · simp [hc]

theorem lastSpaceLen_after_ascii (x v : Bytes) (c0 : Nat) (hc : c0 < 128) (hv : v ≠ [])
    (h : lastSpaceLen v = 0) : lastSpaceLen (x ++ c0 :: v) = 0 := by
  by_contra hne
  have hp : 0 < lastSpaceLen (x ++ c0 :: v) := by omega
  obtain ⟨hle, hw⟩ := lastSpaceLen_word _ hp
  have hvl : 0 < v.length := List.length_pos.2 hv
  generalize hk : lastSpaceLen (x ++ c0 :: v) = k at *
  simp only [List.length_append, List.length_cons] at hle hw
  by_cases hkv : k ≤ v.length
  · have e1 : (x ++ c0 :: v).drop (x.length + (v.length + 1) - k) = v.drop (v.length - k) := by
      have e2 : x ++ c0 :: v = (x ++ [c0]) ++ v := by simp
      have e3 : x.length + (v.length + 1) - k = (x ++ [c0]).length + (v.length - k) := by
        simp only [List.length_append, List.length_singleton]; omega
      rw [e2, e3, List.drop_append]
    rw [e1] at hw
    have hwl : (v.drop (v.length - k)).length = k := by
      simp only [List.length_drop]; omega
    have hwne : v.drop (v.length - k) ≠ [] := by
      intro hnil
      rw [hnil] at hwl
      simp only [List.length_nil] at hwl
      omega
    have := lastSpaceLen_append_word (v.take (v.length - k)) (v.drop (v.length - k)) hwne
      (by rw [hw, hwl])
    rw [List.take_append_drop, hwl] at this
    omega
  · have e1 : (x ++ c0 :: v).drop (x.length + (v.length + 1) - k)
        = x.drop (x.length + (v.length + 1) - k) ++ c0 :: v := by
      rw [List.drop_append_of_le_length (by omega)]
    rw [e1] at hw
    have hpw : 0 < spaceLen (x.drop (x.length + (v.length + 1) - k) ++ c0 :: v) := by omega
    obtain ⟨a, cs, t, e, hk', _, ha, hcs, _⟩ := spaceLen_shape _ hpw
    have hlen := congrArg List.length e
    simp only [List.length_append, List.length_cons, List.length_drop] at hlen
    have hmem : c0 ∈ a :: (cs ++ t) := by rw [← e]; simp
    have hvmem : ∀ b ∈ v, b ∈ a :: (cs ++ t) := fun b hb => by rw [← e]; simp [hb]
    have ht : t = [] := List.eq_nil_of_length_eq_zero (by omega)
    subst ht
    simp only [List.append_nil] at hmem hlen
    rcases ha with ⟨_, hnil⟩ | ⟨ha1, _, _⟩
    · subst hnil
      simp only [List.length_nil] at hlen
      omega
    · simp only [List.mem_cons] at hmem
      rcases hmem with hh | hh
      · omega
      · have := hcs c0 hh
        omega

theorem AllSpace_of_ascii (w : Bytes) (h : ∀ b ∈ w, asciiSpace b = true) : AllSpace w := by
  induction w with
  | nil => exact AllSpace.nil
  | cons b t ih =>
    have := AllSpace_append [b] t (AllSpace_ascii b (h b (by simp)))
      (ih (fun c hc => h c (by simp [hc])))
    simpa using this

theorem split_at_last_newline (c : Bytes) :
    10 ∉ c ∨ ∃ p q, c = p ++ 10 :: q ∧ 10 ∉ q := by
  rcases LastIndexByte_newline c with ⟨h, _, _⟩ | ⟨pos, _, _, h3⟩
  · exact Or.inl h
  · right
    refine ⟨c.take pos, afterLastNewline c, ?_, afterLastNewline_not_mem c⟩
    rw [← h3, List.take_append_drop]

/-- The last line is the trimmed text of the last segment holding anything but white space. -/
theorem TrimSpace_lastSegment (c : Bytes) :
    TrimSpace (afterLastNewline (TrimSpace c)) = TrimSpace (lastSegment c) := by
  generalize hn : c.length = n
  induction n using Nat.strong_induction_on generalizing c with
  | _ n ih =>
    rcases split_at_last_newline c with hno | ⟨p, q, e, hq⟩
    · rw [afterLastNewline_of_not_mem _ (TrimSpace_not_mem _ _ hno), TrimSpace_idem,
        lastSegment_of_not_mem c hno]
      by_cases hc : hasNonSpace c = true
      · rw [if_pos hc]
      · rw [if_neg hc]
        have := (hasNonSpace_false_iff c).1 (by simpa using hc)
        rw [TrimSpace_of_allSpace c this]
        rfl
    · subst e
      rw [lastSegment_append p q hq]
      by_cases hc : hasNonSpace q = true
      · rw [if_pos hc]
        have hqn : ¬ AllSpace q := (hasNonSpace_true_iff q).1 hc
        by_cases hp : AllSpace p
        · have e1 : p ++ 10 :: q = (p ++ [10]) ++ q := by simp
          rw [e1, TrimSpace_allSpace_append _ q
            (AllSpace_append _ _ hp (AllSpace_ascii 10 (by decide))),
            afterLastNewline_of_not_mem _ (TrimSpace_not_mem _ _ hq), TrimSpace_idem]
        · obtain ⟨a, ea, ha, h1⟩ := TrimLeftFunc_spec p
          obtain ⟨b, eb, hb, h2⟩ := TrimRightFunc_spec q
          have hu : TrimLeftFunc p ≠ [] := by
            intro hnil
            rw [hnil, List.append_nil] at ea
            exact hp (ea ▸ ha)
          have hv : TrimRightFunc q ≠ [] := by
            intro hnil
            rw [hnil, List.nil_append] at eb
            exact hqn (eb ▸ hb)
          have hvq : 10 ∉ TrimRightFunc q := by
            intro hm
            apply hq
            rw [eb]; simp [hm]
          have hT : TrimSpace (p ++ 10 :: q) = TrimLeftFunc p ++ 10 :: TrimRightFunc q := by
            have e1 : p ++ 10 :: q = a ++ (TrimLeftFunc p ++ 10 :: q) := by
              rw [← List.append_assoc, ← ea]
            have e2 : TrimLeftFunc p ++ 10 :: q
                = (TrimLeftFunc p ++ 10 :: TrimRightFunc q) ++ b := by
              rw [List.append_assoc, List.cons_append, ← eb]
            rw [TrimSpace_eq, e1, TrimLeftFunc_allSpace a _ ha,
              TrimLeftFunc_of_zero _
                (spaceLen_append_zero _ (10 :: q) hu h1 (by simp)),
              e2, TrimRightFunc_allSpace _ b hb,
              TrimRightFunc_of_zero _
                (lastSpaceLen_after_ascii _ _ 10 (by decide) hv h2)]
          rw [hT, afterLastNewline_append _ _ hvq]
          conv_rhs => rw [eb]
          rw [TrimSpace_append_allSpace _ b hb]
      · rw [if_neg hc]
        have hqa : AllSpace q := (hasNonSpace_false_iff q).1 (by simpa using hc)
        have hqa2 : AllSpace (10 :: q) := by
          have := AllSpace_append [10] q (AllSpace_ascii 10 (by decide)) hqa
          simpa using this
        rw [TrimSpace_append_allSpace p _ hqa2]
        exact ih p.length (by rw [← hn]; simp) p rfl

theorem Write_Buffer (d : DefaultDator) (w : Bytes) : (d.Write w).1.Buffer = d.Buffer ++ w := rfl

/-- C2: when only spaces, tabs and newlines are written after the content `c`, `GetLastLine`
returns the trimmed text of the last newline-delimited segment of `c` that holds a rune other
than white space (the empty string when `c` has none), which is what it returned before the
write. -/
theorem C2_trailing_space_is_invisible (d : DefaultDator) (w : Bytes)
    (hw : ∀ b ∈ w, b = 32 ∨ b = 9 ∨ b = 10) :
    (d.Write w).1.GetLastLine = TrimSpace (lastSegment d.Buffer) ∧
    (d.Write w).1.GetLastLine = d.GetLastLine := by
  have hall : AllSpace w := AllSpace_of_ascii w (fun b hb => by
    rcases hw b hb with h | h | h <;> subst h <;> decide)
  have e : (d.Write w).1.GetLastLine = d.GetLastLine := by
    rw [GetLastLine_eq, GetLastLine_eq, Write_Buffer, TrimSpace_append_allSpace _ w hall]
  exact ⟨by rw [e, GetLastLine_eq, TrimSpace_lastSegment], e⟩

/-- C2 on the content `one\n two \n` followed by a space, a newline and a tab: the last line is
`two`. -/
theorem C2_trailing_space_is_invisible_witness :
    (∀ b ∈ ([32, 10, 9] : Bytes), b = 32 ∨ b = 9 ∨ b = 10) ∧
    ((((NewDator [110]).Write [111, 110, 101, 10, 32, 116, 119, 111, 32, 10]).1.Write
        [32, 10, 9]).1.GetLastLine
      = TrimSpace (lastSegment
          ((NewDator [110]).Write [111, 110, 101, 10, 32, 116, 119, 111, 32, 10]).1.Buffer) ∧
    (((NewDator [110]).Write [111, 110, 101, 10, 32, 116, 119, 111, 32, 10]).1.Write
        [32, 10, 9]).1.GetLastLine
      = ((NewDator [110]).Write [111, 110, 101, 10, 32, 116, 119, 111, 32, 10]).1.GetLastLine) ∧
    (((NewDator [110]).Write [111, 110, 101, 10, 32, 116, 119, 111, 32, 10]).1.Write
        [32, 10, 9]).1.GetLastLine = [116, 119, 111] ∧
    lastSegment ((NewDator [110]).Write [111, 110, 101, 10, 32, 116, 119, 111, 32, 10]).1.Buffer
      = [32, 116, 119, 111, 32] :=
  ⟨by decide, C2_trailing_space_is_invisible _ _ (by decide), by decide, by decide⟩

/-! ### `DefaultDator` as a state machine, `fmt` and the render pass -/

theorem run_closed (d : DefaultDator) (calls : List Call) :
    (d.run calls).closed = (d.closed || decide (Call.close ∈ calls)) := by
  induction calls generalizing d with
  | nil => simp [DefaultDator.run]
  | cons c cs ih =>
    have h : d.run (c :: cs) = (d.step c).run cs := rfl
    rw [h, ih]
    cases c with
    | write p => simp [DefaultDator.step, DefaultDator.Write]
    | close => simp [DefaultDator.step, DefaultDator.Close]

/-- C3: on a Dator made by `NewDator`, after any sequence of `Write` and `Close` calls `IsClosed`
answers true exactly when a `Close` is among the calls made so far: false at every point before
the first `Close`, true at every point after it, whatever follows. -/
theorem C3_isClosed_iff_close_called (name : Bytes) (calls : List Call) :
    ((NewDator name).run calls).IsClosed = true ↔ Call.close ∈ calls := by
  simp [DefaultDator.IsClosed, run_closed, NewDator]

/-- C4, the code at a write after `Close`: on a Dator made by `NewDator` with an empty name,
after `Close` (so `IsClosed` answers true) a `Write` of the byte `x` changes the content, changes
the last line from empty to `x`, and still returns the count 1 and a nil error. -/
theorem C4_write_after_close_appends :
    ((NewDator []).Close.1).IsClosed = true ∧
    (((NewDator []).Close.1).Write [120]).1.Buffer ≠ ((NewDator []).Close.1).Buffer ∧
    (((NewDator []).Close.1).Write [120]).1.GetLastLine ≠ ((NewDator []).Close.1).GetLastLine ∧
    ((NewDator []).Close.1).GetLastLine = [] ∧
    (((NewDator []).Close.1).Write [120]).1.GetLastLine = [120] ∧
    (((NewDator []).Close.1).Write [120]).1.IsClosed = true ∧
    (((NewDator []).Close.1).Write [120]).2 = (1, none) := by
  decide

/-- On every Dator, closed or not, `Write` appends the bytes to the content, reports their number
and a nil error, and leaves the name and the closed flag as they were. -/
theorem Write_appends (d : DefaultDator) (p : Bytes) :
    (d.Write p).1.Buffer = d.Buffer ++ p ∧ (d.Write p).2.1 = p.length ∧
    (d.Write p).2.2 = none ∧ (d.Write p).1.IsClosed = d.IsClosed ∧
    (d.Write p).1.GetName = d.GetName := by
  simp [DefaultDator.Write, DefaultDator.IsClosed, DefaultDator.GetName]

theorem doPrintf_literal (fmt : Bytes) (h : ∀ b ∈ fmt, b ≠ 37) (fuel : Nat)
    (hf : fmt.length < fuel) : doPrintf fuel fmt [] = some fmt := by
  induction fmt generalizing fuel with
  | nil =>
    cases fuel with
    | zero => simp at hf
    | succ n => simp [doPrintf]
  | cons c cs ih =>
    cases fuel with
    | zero => simp at hf
    | succ n =>
      have hc : c ≠ 37 := h c (by simp)
      have := ih (fun b hb => h b (by simp [hb])) n (by simpa using hf)
      simp [doPrintf, hc, this]

theorem eraseLine_eq : eraseLine = eraseSequence := by decide

theorem Repeat_eq (s : Bytes) (n : Nat) : Repeat s n = (List.replicate n s).flatten := by
  induction n with
  | zero => rfl
  | succ n ih => simp [Repeat, ih, List.replicate_succ]

/-- C10: with `n` registered streams `eraseLines` writes exactly `n` copies of the erase sequence
ESC `[1A` ESC `[2K` CR, one after the other, and nothing else. -/
theorem C10_eraseLines_output (m : Manidator) :
    m.eraseLines = some (List.replicate m.dators.length eraseSequence).flatten ∧
    (List.replicate m.dators.length eraseSequence).flatten.length = 9 * m.dators.length := by
  constructor
  · unfold Manidator.eraseLines Sprintf
    rw [doPrintf_literal _ _ _ (Nat.lt_succ_self _), Repeat_eq, eraseLine_eq]
    intro b hb
    rw [Repeat_eq, eraseLine_eq] at hb
    simp only [List.mem_flatten, List.mem_replicate] at hb
    obtain ⟨l, ⟨_, rfl⟩, hb⟩ := hb
    revert b
    decide
  · simp [eraseSequence, List.length_flatten, Nat.mul_comm]

theorem decimal_lt_ten (u : Nat) (h : u < 10) : decimal u = [48 + u] := by
  unfold decimal
  split
  · subst_vars; rfl
  · rw [Nat.digits_def' (by norm_num) (by omega)]
    have h1 : u / 10 = 0 := by omega
    have h2 : u % 10 = u := by omega
    simp [h1, h2]

theorem decimal_ge_ten (u : Nat) (h : 10 ≤ u) :
    decimal u = decimal (u / 10) ++ [48 + u % 10] := by
  have h0 : u ≠ 0 := by omega
  have h1 : u / 10 ≠ 0 := by omega
  unfold decimal
  rw [if_neg h0, if_neg h1, Nat.digits_def' (by norm_num) (by omega)]
  simp

theorem digitsLoop_eq (fuel u : Nat) (acc : Bytes) (h : u ≤ fuel) :
    digitsLoop fuel u acc = decimal u ++ acc := by
  induction fuel generalizing u acc with
  | zero =>
    have : u = 0 := by omega
    subst this
    simp [digitsLoop, decimal]
  | succ n ih =>
    unfold digitsLoop
    split
    · rename_i h10
      rw [ih _ _ (by omega), decimal_ge_ten u h10]
      simp
    · rw [decimal_lt_ten u (by omega)]
      simp

theorem fmtDecimal_natCast (w : Nat) : fmtDecimal (w : Int) = decimal w := by
  unfold fmtDecimal
  have : ¬ ((w : Int) < 0) := by omega
  simp [this, digitsLoop_eq]

theorem lineTemplate_eq (w : Nat) :
    lineTemplate w = [37] ++ decimal w ++ [115, 62, 32, 37, 115, 10] := by
  simp [lineTemplate, Sprintf, doPrintf, skipZeroFlags, parsenum, parsenumLoop, printArg,
    fmtDecimal_natCast]

theorem initLoop_eq (ds : List Dator) (w : Nat) : initLoop ds w = max w (maxNameLen ds) := by
  induction ds generalizing w with
  | nil => simp [initLoop, maxNameLen]
  | cons d ds ih =>
    simp only [initLoop, ih, maxNameLen, List.map_cons, List.foldr_cons]
    split <;> omega

/-- C5: for Dators passed to `New` and to `Add` before `Begin`, the `init` step leaves in
`nameWidth` the largest `len(GetName())` among them (zero when there are none) and in
`fmtString` the format `%`, that width in decimal, `s> %s` and a newline. -/
theorem C5_init_nameWidth_and_template (ds es : List Dator) :
    (((New ds).Add es).init).nameWidth = maxNameLen (ds ++ es) ∧
    (((New ds).Add es).init).fmtString
      = [37] ++ decimal (maxNameLen (ds ++ es)) ++ [115, 62, 32, 37, 115, 10] ∧
    (((New ds).Add es).init).dators = ds ++ es := by
  simp [Manidator.init, New, Manidator.Add, initLoop_eq, lineTemplate_eq]

theorem decimal_digits (u : Nat) : ∀ b ∈ decimal u, 48 ≤ b ∧ b ≤ 57 := by
  induction u using Nat.strong_induction_on with
  | _ u ih =>
    by_cases h : u < 10
    · rw [decimal_lt_ten u h]; simp; omega
    · rw [decimal_ge_ten u (by omega)]
      intro b hb
      rcases List.mem_append.1 hb with hb | hb
      · exact ih (u / 10) (by omega) b hb
      · simp at hb; omega

theorem decimal_head (u : Nat) (h : 0 < u) :
    ∃ d0 t, decimal u = d0 :: t ∧ 49 ≤ d0 ∧ d0 ≤ 57 := by
  induction u using Nat.strong_induction_on with
  | _ u ih =>
    by_cases h10 : u < 10
    · exact ⟨48 + u, [], decimal_lt_ten u h10, by omega, by omega⟩
    · obtain ⟨d0, t, e, h1, h2⟩ := ih (u / 10) (by omega) (by omega)
      exact ⟨d0, t ++ [48 + u % 10], by rw [decimal_ge_ten u (by omega), e]; rfl, h1, h2⟩

theorem parsenumLoop_decimal (u : Nat) (h : u ≤ 10000009) (rest : Bytes) :
    parsenumLoop (decimal u ++ rest) 0 false = parsenumLoop rest u true := by
  induction u using Nat.strong_induction_on generalizing rest with
  | _ u ih =>
    by_cases h10 : u < 10
    · rw [decimal_lt_ten u h10]
      have h1 : 48 ≤ 48 + u ∧ 48 + u ≤ 57 := by omega
      simp [parsenumLoop, tooLarge, h1]
    · rw [decimal_ge_ten u (by omega), List.append_assoc, ih (u / 10) (by omega) (by omega)]
      have h1 : 48 ≤ 48 + u % 10 ∧ 48 + u % 10 ≤ 57 := by omega
      have h2 : ¬ (1000000 < u / 10) := by omega
      have h3 : u / 10 * 10 + u % 10 = u := by omega
      simp [parsenumLoop, tooLarge, h1, h2, h3]

theorem doPrintf_tail (n : Nat) (line : Bytes) :
    doPrintf (n + 6) [62, 32, 37, 115, 10] [.str line] = some ([62, 32] ++ line ++ [10]) := by
  simp [doPrintf, skipZeroFlags, printArg, padString]

theorem skipZeroFlags_ne (d0 : Nat) (rest : Bytes) (h : d0 ≠ 48) :
    skipZeroFlags (d0 :: rest) = (false, d0 :: rest) := by
  unfold skipZeroFlags
  split
  · rename_i heq
    simp only [List.cons.injEq] at heq
    exact absurd heq.1 h
  · rfl

theorem doPrintf_width (fuel d0 wid : Nat) (rest rest2 : Bytes) (a : Arg) (as : List Arg)
    (h1 : 49 ≤ d0) (h2 : d0 ≤ 57)
    (hp : parsenumLoop (d0 :: rest) 0 false = (wid, true, 115 :: rest2)) :
    doPrintf (fuel + 1) (37 :: d0 :: rest) (a :: as)
      = (printArg a 115 wid true false).bind fun x =>
          (doPrintf fuel rest2 as).map (fun r => x ++ r) := by
  have c1 : ¬ (d0 = 35 ∨ d0 = 43 ∨ d0 = 45 ∨ d0 = 32) := by omega
  have c2 : ¬ (97 ≤ d0 ∧ d0 ≤ 122 ∧ a :: as ≠ []) := by omega
  have c3 : ¬ (d0 = 91 ∨ d0 = 42) := by omega
  rw [doPrintf]
  simp only [skipZeroFlags_ne d0 rest (by omega), ne_eq, not_true_eq_false, if_false, c1, c2, c3,
    parsenum, hp]
  simp

theorem Sprintf_lineTemplate (w : Nat) (hw : w ≤ 1000000) (name line : Bytes) :
    Sprintf (lineTemplate w) [.str name, .str line] = some (row w name line) := by
  rw [lineTemplate_eq]
  by_cases h0 : w = 0
  · subst h0
    simp [Sprintf, decimal, doPrintf, skipZeroFlags, printArg, padString, row]
  · obtain ⟨d0, t, e, h1, h2⟩ := decimal_head w (by omega)
    have hp := parsenumLoop_decimal w (by omega) [115, 62, 32, 37, 115, 10]
    rw [e] at hp
    have hp2 : parsenumLoop (d0 :: (t ++ [115, 62, 32, 37, 115, 10])) 0 false
        = (w, true, 115 :: [62, 32, 37, 115, 10]) := by
      rw [← List.cons_append, hp]
      simp [parsenumLoop]
    have hfuel : ([37] ++ d0 :: t ++ [115, 62, 32, 37, 115, 10]).length + 1
        = ((t.length + 2) + 6) + 1 := by
      simp
    unfold Sprintf
    rw [e, hfuel]
    have hform : [37] ++ d0 :: t ++ [115, 62, 32, 37, 115, 10]
        = 37 :: d0 :: (t ++ [115, 62, 32, 37, 115, 10]) := by simp
    rw [hform, doPrintf_width _ d0 w _ _ _ _ h1 h2 hp2, doPrintf_tail]
    simp [printArg, padString, h0, row]

theorem nameField_eq (nw : Nat) (name : Bytes) : nameField nw name = some (shownName nw name) := by
  unfold nameField shownName sliceFrom
  split
  · rename_i h
    have : ¬ (((nw : Int) < 0) ∨ ((name.length : Int) < (nw : Int))) := by omega
    simp [this]
    omega
  · rfl

theorem ellide_eq (mw : Int) (line : Bytes) (h : 0 ≤ mw) :
    ellide mw line = some (shownLine mw line) := by
  unfold ellide shownLine sliceFrom lastBytes
  split
  · rename_i hlt
    have : ¬ (((line.length : Int) - mw < 0) ∨ ((line.length : Int) < (line.length : Int) - mw)) := by
      omega
    have e : ((line.length : Int) - mw).toNat = line.length - mw.toNat := by omega
    simp [this, e]
    omega
  · rfl

theorem ellide_neg (mw : Int) (line : Bytes) (h : mw < 0) : ellide mw line = none := by
  unfold ellide sliceFrom
  have h1 : mw < (line.length : Int) := by omega
  have h2 : (line.length : Int) < (line.length : Int) - mw := by omega
  simp [h1, h2]

theorem printLoop_neg (nw : Nat) (f : Bytes) (mw : Int) (h : mw < 0) (d : Dator)
    (ds : List Dator) (p : Pass) :
    printLoop nw f mw (d :: ds) p = { p with panicked := true } := by
  simp [printLoop, nameField_eq, ellide_neg _ _ h]

theorem printLoop_polled (nw : Nat) (f : Bytes) (mw : Int) (h : 0 ≤ mw) (ds : List Dator)
    (p : Pass) (hp : p.panicked = false) :
    (printLoop nw f mw ds p).polled = p.polled ++ ds.map (fun d => d.IsClosed) ∧
    (printLoop nw f mw ds p).closedCnt = p.closedCnt + ds.countP (fun d => d.IsClosed) ∧
    (printLoop nw f mw ds p).panicked = false := by
  induction ds generalizing p with
  | nil => simp [printLoop, hp]
  | cons d ds ih =>
    simp only [printLoop, nameField_eq, ellide_eq _ _ h]
    obtain ⟨h1, h2, h3⟩ := ih
      { out := p.out.bind fun o =>
          (Sprintf f [.str (shownName nw d.GetName), .str (shownLine mw d.GetLastLine)]).map (o ++ ·)
        polled := p.polled ++ [d.IsClosed]
        closedCnt := if d.IsClosed then p.closedCnt + 1 else p.closedCnt
        panicked := false } rfl
    refine ⟨by rw [h1]; simp, ?_, h3⟩
    rw [h2]
    cases hc : d.IsClosed <;> simp [List.countP_cons, hc]
    omega

theorem printLoop_out (nw : Nat) (mw : Int) (h : 0 ≤ mw) (hw : nw ≤ 1000000) (ds : List Dator)
    (p : Pass) (o : Bytes) (hp : p.out = some o) :
    (printLoop nw (lineTemplate nw) mw ds p).out
      = some (o ++ ds.flatMap fun d =>
          row nw (shownName nw d.GetName) (shownLine mw d.GetLastLine)) := by
  induction ds generalizing p o with
  | nil => simp [printLoop, hp]
  | cons d ds ih =>
    simp only [printLoop, nameField_eq, ellide_eq _ _ h]
    rw [ih _ (o ++ row nw (shownName nw d.GetName) (shownLine mw d.GetLastLine))
      (by simp [hp, Sprintf_lineTemplate nw hw])]
    simp

theorem countP_eq_length_iff (ds : List Dator) :
    ds.countP (fun d => d.IsClosed) = ds.length ↔ ∀ d ∈ ds, d.IsClosed = true := by
  rw [List.countP_eq_length]

theorem runeCountLoop_ascii (fuel : Nat) (s : Bytes) (h : ∀ b ∈ s, b < 128)
    (hf : s.length ≤ fuel) : runeCountLoop fuel s = s.length := by
  induction fuel generalizing s with
  | zero =>
    have : s = [] := List.eq_nil_of_length_eq_zero (by omega)
    subst this; rfl
  | succ n ih =>
    cases s with
    | nil => rfl
    | cons b t =>
      have hb : b < 128 := h b (by simp)
      have hd : DecodeRuneInString (b :: t) = (b, 1) := by
        simp [DecodeRuneInString, first, hb]
      simp only [runeCountLoop, hd, List.drop_succ_cons, List.drop_zero, List.length_cons]
      rw [ih t (fun c hc => h c (by simp [hc])) (by simpa using hf)]
      omega

theorem RuneCountInString_ascii (s : Bytes) (h : ∀ b ∈ s, b < 128) :
    RuneCountInString s = s.length :=
  runeCountLoop_ascii _ s h (Nat.le_refl _)

theorem shownName_short (nw : Nat) (name : Bytes) (h : name.length ≤ nw) :
    shownName nw name = name := by
  simp [shownName, Nat.not_lt.2 h]

theorem shownLine_short (mw : Int) (line : Bytes) (h : (line.length : Int) ≤ mw) :
    shownLine mw line = line := by
  have : ¬ (mw < (line.length : Int)) := by omega
  simp [shownLine, this]

theorem printLines_out_loop (m : Manidator) (size : Option Int) :
    (m.printLines size).out = (printLoop m.nameWidth m.fmtString (maxContentWidth m size)
      m.dators { out := some [], polled := [], closedCnt := 0, panicked := false }).out := by
  simp only [Manidator.printLines, maxContentWidth]
  split_ifs <;> rfl

theorem printLines_polled_loop (m : Manidator) (size : Option Int) :
    (m.printLines size).polled = (printLoop m.nameWidth m.fmtString (maxContentWidth m size)
      m.dators { out := some [], polled := [], closedCnt := 0, panicked := false }).polled := by
  simp only [Manidator.printLines, maxContentWidth]
  split_ifs <;> rfl

theorem printLines_out (m : Manidator) (size : Option Int)
    (hfmt : m.fmtString = lineTemplate m.nameWidth) (hw : m.nameWidth ≤ 1000000)
    (hmax : 0 ≤ maxContentWidth m size ∨ m.dators = []) :
    (m.printLines size).out = some (m.dators.flatMap fun d =>
      row m.nameWidth (shownName m.nameWidth d.GetName)
        (shownLine (maxContentWidth m size) d.GetLastLine)) := by
  rw [printLines_out_loop]
  rcases hmax with hmax | hnil
  · rw [hfmt, printLoop_out m.nameWidth _ hmax hw m.dators _ [] rfl]
    simp
  · simp [hnil, printLoop]

/-- C6, refuted as stated: the stream named `é` has a name of two bytes, `nameWidth` is two and
the line fits, yet the row printed starts with one space, where `nameWidth - len(name)` is
zero. -/
theorem C6_accent_row_is_padded :
    accentExample.nameWidth = 2 ∧
    (∀ d ∈ accentExample.dators, d.GetName.length ≤ accentExample.nameWidth ∧
      (d.GetLastLine.length : Int) ≤ maxContentWidth accentExample none) ∧
    (accentExample.printLines none).out = some [32, 195, 169, 62, 32, 120, 10] ∧
    (accentExample.printLines none).out ≠ some (accentExample.dators.flatMap fun d =>
      rowByLen accentExample.nameWidth d.GetName d.GetLastLine) := by
  decide

/-- C6, amended: after `init`, with `nameWidth` at most 1000000 (beyond its limit `fmt` rejects
the width), when no name is longer than `nameWidth` and no last line longer than the maximum
content width, a render pass writes one row per stream, in registration order: `nameWidth` less
the number of runes of the name spaces, the name, `"> "`, the last line, a newline.  For names
of ASCII bytes the number of spaces is `nameWidth - len(name)`. -/
theorem C6_rows_in_order (m : Manidator) (size : Option Int)
    (hfmt : m.fmtString = lineTemplate m.nameWidth) (hw : m.nameWidth ≤ 1000000)
    (h : ∀ d ∈ m.dators, d.GetName.length ≤ m.nameWidth ∧
      (d.GetLastLine.length : Int) ≤ maxContentWidth m size) :
    (m.printLines size).out
      = some (m.dators.flatMap fun d => row m.nameWidth d.GetName d.GetLastLine) ∧
    ((∀ d ∈ m.dators, ∀ b ∈ d.GetName, b < 128) →
      (m.printLines size).out
        = some (m.dators.flatMap fun d => rowByLen m.nameWidth d.GetName d.GetLastLine)) := by
  have hmax : 0 ≤ maxContentWidth m size ∨ m.dators = [] := by
    cases hd : m.dators with
    | nil => exact Or.inr rfl
    | cons d ds =>
      have := (h d (by simp [hd])).2
      left; omega
  have e1 : (m.printLines size).out
      = some (m.dators.flatMap fun d => row m.nameWidth d.GetName d.GetLastLine) := by
    rw [printLines_out m size hfmt hw hmax]
    congr 1
    apply List.flatMap_congr
    intro d hd
    rw [shownName_short _ _ (h d hd).1, shownLine_short _ _ (h d hd).2]
  refine ⟨e1, fun hascii => ?_⟩
  rw [e1]
  congr 1
  apply List.flatMap_congr
  intro d hd
  simp [row, rowByLen, RuneCountInString_ascii _ (hascii d hd)]

/-- C6, the scenario of the specification: streams `a`, `bb`, `ccc` showing `x`, `yy`, `zzz` are
rendered as `  a> x`, ` bb> yy`, `ccc> zzz`. -/
theorem C6_rows_in_order_witness :
    (threeExample.fmtString = lineTemplate threeExample.nameWidth ∧
      threeExample.nameWidth ≤ 1000000 ∧
      (∀ d ∈ threeExample.dators, d.GetName.length ≤ threeExample.nameWidth ∧
        (d.GetLastLine.length : Int) ≤ maxContentWidth threeExample none)) ∧
    ((threeExample.printLines none).out
      = some (threeExample.dators.flatMap fun d =>
          row threeExample.nameWidth d.GetName d.GetLastLine) ∧
    ((∀ d ∈ threeExample.dators, ∀ b ∈ d.GetName, b < 128) →
      (threeExample.printLines none).out
        = some (threeExample.dators.flatMap fun d =>
            rowByLen threeExample.nameWidth d.GetName d.GetLastLine))) ∧
    (threeExample.printLines none).out
      = some ([32, 32, 97, 62, 32, 120, 10] ++ [32, 98, 98, 62, 32, 121, 121, 10]
          ++ [99, 99, 99, 62, 32, 122, 122, 122, 10]) :=
  ⟨by decide, C6_rows_in_order threeExample none (by decide) (by decide) (by decide), by decide⟩

/-- C7, the code on a narrow terminal: one closed stream named `abcde` with an empty last line.
With a terminal ten columns wide and `nameWidth` five the maximum content width is `-1`; the
empty last line is longer than that, the pass panics on the slice expression and renders nothing
at all, neither the line unchanged nor three dots and a tail. -/
theorem C7_negative_width_renders_nothing :
    narrowExample.nameWidth = 5 ∧ maxContentWidth narrowExample (some 10) = -1 ∧
    (∀ d ∈ narrowExample.dators,
      maxContentWidth narrowExample (some 10) < (d.GetLastLine.length : Int)) ∧
    (narrowExample.printLines (some 10)).panicked = true ∧
    (narrowExample.printLines (some 10)).out = some [] ∧
    (narrowExample.printLines (some 10)).out ≠ some (narrowExample.dators.flatMap fun d =>
      row narrowExample.nameWidth (shownName narrowExample.nameWidth d.GetName)
        (shownLine (maxContentWidth narrowExample (some 10)) d.GetLastLine)) := by
  decide

/-- The maximum content width of a pass is the terminal width less `nameWidth` less six; when it
is not negative (after `init`, `nameWidth` at most 1000000), the content of every row is the last
line itself when that is not longer than the maximum, and otherwise three dots followed by the
last maximum-content-width bytes of the line. -/
theorem content_is_ellided (m : Manidator) (size : Option Int)
    (hfmt : m.fmtString = lineTemplate m.nameWidth) (hw : m.nameWidth ≤ 1000000)
    (hmax : 0 ≤ terminalWidth size - m.nameWidth - 6) :
    maxContentWidth m size = terminalWidth size - m.nameWidth - 6 ∧
    (m.printLines size).out = some (m.dators.flatMap fun d =>
      row m.nameWidth (shownName m.nameWidth d.GetName)
        (if maxContentWidth m size < (d.GetLastLine.length : Int) then
          [46, 46, 46] ++ lastBytes (maxContentWidth m size).toNat d.GetLastLine
        else d.GetLastLine)) :=
  ⟨rfl, printLines_out m size hfmt hw (Or.inl hmax)⟩

/-- Terminal width 20 and `nameWidth` 5 give a maximum of 9, and `abcdefghijklmno` is rendered as
`...ghijklmno`. -/
theorem content_is_ellided_example :
    (longLineExample.fmtString = lineTemplate longLineExample.nameWidth ∧
      longLineExample.nameWidth ≤ 1000000 ∧
      0 ≤ terminalWidth (some 20) - longLineExample.nameWidth - 6) ∧
    (maxContentWidth longLineExample (some 20)
        = terminalWidth (some 20) - longLineExample.nameWidth - 6 ∧
      (longLineExample.printLines (some 20)).out = some (longLineExample.dators.flatMap fun d =>
        row longLineExample.nameWidth (shownName longLineExample.nameWidth d.GetName)
          (if maxContentWidth longLineExample (some 20) < (d.GetLastLine.length : Int) then
            [46, 46, 46] ++ lastBytes (maxContentWidth longLineExample (some 20)).toNat d.GetLastLine
          else d.GetLastLine))) ∧
    longLineExample.nameWidth = 5 ∧ maxContentWidth longLineExample (some 20) = 9 ∧
    (longLineExample.printLines (some 20)).out
      = some ([97, 98, 99, 100, 101, 62, 32] ++
          [46, 46, 46, 103, 104, 105, 106, 107, 108, 109, 110, 111] ++ [10]) :=
  ⟨by decide, content_is_ellided longLineExample (some 20) (by decide) (by decide) (by decide),
    by decide, by decide, by decide⟩

/-- C8, refuted as stated: with a maximum content width of 9 the fifteen bytes
`abcdefghijklmno` are shown as `...ghijklmno`, twelve bytes and not nine. -/
theorem C8_ellided_line_is_longer :
    ellide 9 [97, 98, 99, 100, 101, 102, 103, 104, 105, 106, 107, 108, 109, 110, 111]
      = some [46, 46, 46, 103, 104, 105, 106, 107, 108, 109, 110, 111] ∧
    ([46, 46, 46, 103, 104, 105, 106, 107, 108, 109, 110, 111] : Bytes).length = 12 ∧
    ∀ t, ellide 9 [97, 98, 99, 100, 101, 102, 103, 104, 105, 106, 107, 108, 109, 110, 111]
      = some t → (t.length : Int) ≠ 9 := by
  refine ⟨by decide, by decide, ?_⟩
  intro t ht
  have h : ellide 9 [97, 98, 99, 100, 101, 102, 103, 104, 105, 106, 107, 108, 109, 110, 111]
      = some [46, 46, 46, 103, 104, 105, 106, 107, 108, 109, 110, 111] := by decide
  rw [h] at ht
  cases ht
  decide

/-- C8, amended: a last line longer than a maximum content width that is not negative is shown
as three dots and its last maximum-width bytes, which is maximum width plus three bytes in
all. -/
theorem C8_ellided_length (maxWidth : Int) (line : Bytes) (h0 : 0 ≤ maxWidth)
    (hlong : maxWidth < (line.length : Int)) :
    ellide maxWidth line = some ([46, 46, 46] ++ lastBytes maxWidth.toNat line) ∧
    (([46, 46, 46] ++ lastBytes maxWidth.toNat line).length : Int) = maxWidth + 3 := by
  constructor
  · rw [ellide_eq _ _ h0]
    simp [shownLine, hlong]
  · simp only [lastBytes, List.length_append, List.length_drop, List.length_cons,
      List.length_nil]
    omega

/-- C8 at the scenario of the specification: maximum 9, a line of fifteen bytes. -/
theorem C8_ellided_length_witness :
    ((0 : Int) ≤ 9 ∧ (9 : Int) <
      (([97, 98, 99, 100, 101, 102, 103, 104, 105, 106, 107, 108, 109, 110, 111] : Bytes).length
        : Int)) ∧
    (ellide 9 [97, 98, 99, 100, 101, 102, 103, 104, 105, 106, 107, 108, 109, 110, 111]
      = some ([46, 46, 46] ++ lastBytes (9 : Int).toNat
          [97, 98, 99, 100, 101, 102, 103, 104, 105, 106, 107, 108, 109, 110, 111]) ∧
    (([46, 46, 46] ++ lastBytes (9 : Int).toNat
        [97, 98, 99, 100, 101, 102, 103, 104, 105, 106, 107, 108, 109, 110, 111]).length : Int)
      = 9 + 3) :=
  ⟨by decide, C8_ellided_length 9
    [97, 98, 99, 100, 101, 102, 103, 104, 105, 106, 107, 108, 109, 110, 111]
    (by decide) (by decide)⟩

theorem printLines_nil (m : Manidator) (size : Option Int) (h : m.dators = []) :
    m.printLines size = { out := some [], polled := [], done := true, panicked := m.done } := by
  simp [Manidator.printLines, h, printLoop]

theorem printLines_neg (m : Manidator) (size : Option Int) (h : maxContentWidth m size < 0)
    (hne : m.dators ≠ []) :
    m.printLines size = { out := some [], polled := [], done := m.done, panicked := true } := by
  cases hd : m.dators with
  | nil => exact absurd hd hne
  | cons d ds =>
    simp only [maxContentWidth] at h
    simp [Manidator.printLines, hd, printLoop_neg _ _ _ h]

theorem printLines_nonneg (m : Manidator) (size : Option Int)
    (h : 0 ≤ maxContentWidth m size) :
    (m.printLines size).polled = m.dators.map (fun d => d.IsClosed) ∧
    ((m.printLines size).done = true ↔ (m.done = true ∨ ∀ d ∈ m.dators, d.IsClosed = true)) := by
  obtain ⟨h1, h2, h3⟩ := printLoop_polled m.nameWidth m.fmtString (maxContentWidth m size) h
    m.dators { out := some [], polled := [], closedCnt := 0, panicked := false } rfl
  simp only [maxContentWidth] at h1 h2 h3
  simp only [Manidator.printLines, h3, h2, h1]
  simp only [Bool.false_eq_true, if_false, Nat.zero_add, List.nil_append]
  by_cases hall : List.countP (fun d => d.IsClosed) m.dators = m.dators.length
  · have := (countP_eq_length_iff m.dators).1 hall
    simp [hall, this]
    exact Or.inr this
  · have : ¬ ∀ d ∈ m.dators, d.IsClosed = true := fun h =>
      hall ((countP_eq_length_iff m.dators).2 h)
    simp [hall, this]

/-- C9: on a Manidator whose `done` channel is still open, a render pass closes `done` exactly
when the answers `IsClosed` gave during the pass are one `true` for every registered stream.
The answers are those of the streams in order, as far as the pass got; a pass with a stream that
answers false leaves `done` open; a pass over no streams closes it; and when the maximum content
width is not negative every stream is asked, so `done` is closed exactly when all are closed. -/
theorem C9_done_iff_all_closed (m : Manidator) (size : Option Int) (hd : m.done = false) :
    ((m.printLines size).done = true ↔
      (m.printLines size).polled = List.replicate m.dators.length true) ∧
    (m.printLines size).polled <+: m.dators.map (fun d => d.IsClosed) ∧
    ((∃ d ∈ m.dators, d.IsClosed = false) → (m.printLines size).done = false) ∧
    (m.dators = [] → (m.printLines size).done = true ∧ (m.printLines size).panicked = false) ∧
    (0 ≤ maxContentWidth m size →
      (m.printLines size).polled = m.dators.map (fun d => d.IsClosed) ∧
      ((m.printLines size).done = true ↔ ∀ d ∈ m.dators, d.IsClosed = true)) := by
  have hrep : m.dators.map (fun d => d.IsClosed) = List.replicate m.dators.length true ↔
      ∀ d ∈ m.dators, d.IsClosed = true := by
    rw [List.eq_replicate_iff]
    simp
  by_cases hnil : m.dators = []
  · rw [printLines_nil m size hnil]
    simp [hnil, hd]
  by_cases hneg : maxContentWidth m size < 0
  · rw [printLines_neg m size hneg hnil]
    have hlen : m.dators.length ≠ 0 := by simpa using hnil
    refine ⟨?_, ?_, ?_, ?_, ?_⟩
    · simp [hd]
      intro h
      have := congrArg List.length h
      simp only [List.length_nil, List.length_replicate] at this
      omega
    · simp
    · simp [hd]
    · intro h; exact absurd h hnil
    · intro h; exact absurd h (by omega)
  · have hpos : 0 ≤ maxContentWidth m size := by omega
    obtain ⟨h1, h2⟩ := printLines_nonneg m size hpos
    simp only [hd, Bool.false_eq_true, false_or] at h2
    refine ⟨?_, ?_, ?_, ?_, ?_⟩
    · rw [h1, hrep, h2]
    · rw [h1]
    · rintro ⟨d, hdm, hc⟩
      cases hdone : (m.printLines size).done with
      | false => rfl
      | true =>
        have := h2.1 hdone d hdm
        simp [hc] at this
    · intro h; exact absurd h hnil
    · intro _; exact ⟨h1, h2⟩

/-- C9 on the three-stream example, whose streams are open: the pass asks each and leaves `done`
open. -/
theorem C9_done_iff_all_closed_witness :
    threeExample.done = false ∧
    (((threeExample.printLines none).done = true ↔
      (threeExample.printLines none).polled = List.replicate threeExample.dators.length true) ∧
    (threeExample.printLines none).polled <+: threeExample.dators.map (fun d => d.IsClosed) ∧
    ((∃ d ∈ threeExample.dators, d.IsClosed = false) →
      (threeExample.printLines none).done = false) ∧
    (threeExample.dators = [] →
      (threeExample.printLines none).done = true ∧
      (threeExample.printLines none).panicked = false) ∧
    (0 ≤ maxContentWidth threeExample none →
      (threeExample.printLines none).polled = threeExample.dators.map (fun d => d.IsClosed) ∧
      ((threeExample.printLines none).done = true ↔
        ∀ d ∈ threeExample.dators, d.IsClosed = true))) :=
  ⟨by decide, C9_done_iff_all_closed threeExample none (by decide)⟩

/-! ### Long names, narrow terminals and the width of a row -/

/-- C11, the code at a name longer than `nameWidth`: `Begin` measured a width of 3, the stream
added later is named `abcdefgh`, and the name printed before `"> "` is `defgh`, the name without
its first three bytes: five bytes, neither the first three of the name nor three wide. -/
theorem C11_long_name_keeps_its_tail :
    lateExample.nameWidth = 3 ∧
    nameField lateExample.nameWidth [97, 98, 99, 100, 101, 102, 103, 104]
      = some [100, 101, 102, 103, 104] ∧
    (lateExample.printLines none).out
      = some ([97, 98, 99, 62, 32, 120, 10] ++ [100, 101, 102, 103, 104, 62, 32, 121, 10]) ∧
    (lateExample.printLines none).panicked = false := by
  decide

/-- C12, the code at a narrow terminal: with ten columns and `nameWidth` five the maximum
content width is `-1`, the slice `line[len(line)-maxWidth:]` of the empty last line asks for
`line[1:]`, and the pass ends in a run-time panic before anything is printed. -/
theorem C12_narrow_terminal_panics :
    narrowExample.nameWidth = 5 ∧ maxContentWidth narrowExample (some 10) = -1 ∧
    ellide (-1) [] = none ∧ sliceFrom [] 1 = none ∧
    (narrowExample.printLines (some 10)).panicked = true ∧
    (narrowExample.printLines (some 10)).out = some [] ∧
    (narrowExample.printLines (some 10)).polled = [] := by
  decide

/-- C13, refuted as stated: the stream named `é` on a terminal eight columns wide, with
`nameWidth` two and the last line `x`, is rendered as ` é> ...`, eight bytes and not at most
seven. -/
theorem C13_accent_row_is_wider :
    accentExample.nameWidth = 2 ∧
    (accentExample.nameWidth : Int) + 6 ≤ terminalWidth (some 8) ∧
    (∀ d ∈ accentExample.dators, d.GetName.length ≤ accentExample.nameWidth) ∧
    (accentExample.printLines (some 8)).out
      = some ([32, 195, 169, 62, 32, 46, 46, 46] ++ [10]) ∧
    ¬ ((([32, 195, 169, 62, 32, 46, 46, 46] : Bytes).length : Int) ≤ terminalWidth (some 8) - 1) := by
  decide

theorem runeCountLoop_le (fuel : Nat) (s : Bytes) : runeCountLoop fuel s ≤ s.length := by
  induction fuel generalizing s with
  | zero => simp [runeCountLoop]
  | succ n ih =>
    cases s with
    | nil => simp [runeCountLoop]
    | cons b t =>
      have hsz := decode_size (b :: t) (by simp)
      have := ih ((b :: t).drop (DecodeRuneInString (b :: t)).2)
      simp only [runeCountLoop, List.length_drop, List.length_cons] at *
      omega

theorem RuneCountInString_le (s : Bytes) : RuneCountInString s ≤ s.length :=
  runeCountLoop_le _ s

theorem shownLine_length (mw : Int) (line : Bytes) (h : 0 ≤ mw) :
    ((shownLine mw line).length : Int) ≤ mw + 3 := by
  unfold shownLine lastBytes
  by_cases hl : mw < (line.length : Int)
  · rw [if_pos hl]
    simp only [List.length_append, List.length_drop, List.length_cons, List.length_nil]
    omega
  · rw [if_neg hl]; omega

theorem row_eq_rowText (nw : Nat) (name content : Bytes) :
    row nw name content = rowText nw name content ++ [10] := rfl

theorem rowText_length (nw : Nat) (name content : Bytes) :
    (rowText nw name content).length
      = (nw - RuneCountInString name) + name.length + 2 + content.length := by
  simp [rowText]
  omega

/-- C13, amended: after `init` with `nameWidth` at most 1000000, on a terminal at least
`nameWidth + 6` columns wide, a pass writes one row per stream, and for a stream whose name is
no longer than `nameWidth` the row without its newline is at most `width - 1` bytes plus the
bytes by which the name exceeds its number of runes; so at most `width - 1` bytes when the name
is ASCII. -/
theorem C13_row_fits_terminal (m : Manidator) (size : Option Int)
    (hfmt : m.fmtString = lineTemplate m.nameWidth) (hw : m.nameWidth ≤ 1000000)
    (hwide : (m.nameWidth : Int) + 6 ≤ terminalWidth size) :
    (m.printLines size).out = some (m.dators.flatMap fun d =>
      rowText m.nameWidth (shownName m.nameWidth d.GetName)
        (shownLine (maxContentWidth m size) d.GetLastLine) ++ [10]) ∧
    ∀ d ∈ m.dators, d.GetName.length ≤ m.nameWidth →
      ((rowText m.nameWidth (shownName m.nameWidth d.GetName)
          (shownLine (maxContentWidth m size) d.GetLastLine)).length : Int)
        ≤ terminalWidth size - 1 + (d.GetName.length - RuneCountInString d.GetName) ∧
      ((∀ b ∈ d.GetName, b < 128) →
        ((rowText m.nameWidth (shownName m.nameWidth d.GetName)
          (shownLine (maxContentWidth m size) d.GetLastLine)).length : Int)
        ≤ terminalWidth size - 1) := by
  have hmax : 0 ≤ maxContentWidth m size := by
    unfold maxContentWidth; omega
  refine ⟨printLines_out m size hfmt hw (Or.inl hmax), ?_⟩
  intro d _ hshort
  have hl := shownLine_length (maxContentWidth m size) d.GetLastLine hmax
  have hr := RuneCountInString_le d.GetName
  have hmw : maxContentWidth m size = terminalWidth size - m.nameWidth - 6 := rfl
  rw [shownName_short _ _ hshort, rowText_length]
  constructor
  · push_cast
    omega
  · intro hascii
    have := RuneCountInString_ascii _ hascii
    push_cast
    omega

/-- C13 on the three-stream example with the 80-column fallback. -/
theorem C13_row_fits_terminal_witness :
    (threeExample.fmtString = lineTemplate threeExample.nameWidth ∧
      threeExample.nameWidth ≤ 1000000 ∧
      (threeExample.nameWidth : Int) + 6 ≤ terminalWidth none) ∧
    ((threeExample.printLines none).out = some (threeExample.dators.flatMap fun d =>
      rowText threeExample.nameWidth (shownName threeExample.nameWidth d.GetName)
        (shownLine (maxContentWidth threeExample none) d.GetLastLine) ++ [10]) ∧
    ∀ d ∈ threeExample.dators, d.GetName.length ≤ threeExample.nameWidth →
      ((rowText threeExample.nameWidth (shownName threeExample.nameWidth d.GetName)
          (shownLine (maxContentWidth threeExample none) d.GetLastLine)).length : Int)
        ≤ terminalWidth none - 1 + (d.GetName.length - RuneCountInString d.GetName) ∧
      ((∀ b ∈ d.GetName, b < 128) →
        ((rowText threeExample.nameWidth (shownName threeExample.nameWidth d.GetName)
          (shownLine (maxContentWidth threeExample none) d.GetLastLine)).length : Int)
        ≤ terminalWidth none - 1)) :=
  ⟨by decide, C13_row_fits_terminal threeExample none (by decide) (by decide) (by decide)⟩

/-! ### `Add` and the shape of the last line -/

/-- C15: `Add` appends the given streams after the registered ones in the order given and
changes nothing else, so `New(d...)` then `Add(e...)` holds `d` followed by `e`, and a stream
added after `init` leaves `nameWidth` and the line template as `init` left them.  That order is
the display order: when the maximum content width is not negative (after `init`, `nameWidth` at
most 1000000) a pass polls and prints the streams in it. -/
theorem C15_add_appends_in_order (m : Manidator) (ds es : List Dator) (size : Option Int) :
    (m.Add es).dators = m.dators ++ es ∧
    (m.Add es).nameWidth = m.nameWidth ∧ (m.Add es).fmtString = m.fmtString ∧
    (m.Add es).Interval = m.Interval ∧ (m.Add es).done = m.done ∧
    (m.Add es).cancel = m.cancel ∧
    ((New ds).Add es).dators = ds ++ es ∧
    ((m.init).Add es).nameWidth = m.init.nameWidth ∧
    ((m.init).Add es).fmtString = lineTemplate m.init.nameWidth ∧
    (m.fmtString = lineTemplate m.nameWidth → m.nameWidth ≤ 1000000 →
      0 ≤ maxContentWidth m size →
      ((m.Add es).printLines size).polled = (m.dators ++ es).map (fun d => d.IsClosed) ∧
      ((m.Add es).printLines size).out = some ((m.dators ++ es).flatMap fun d =>
        row m.nameWidth (shownName m.nameWidth d.GetName)
          (shownLine (maxContentWidth m size) d.GetLastLine))) := by
  refine ⟨rfl, rfl, rfl, rfl, rfl, rfl, by simp [New, Manidator.Add], rfl, rfl, ?_⟩
  intro hfmt hw hmax
  exact ⟨(printLines_nonneg (m.Add es) size hmax).1,
    printLines_out (m.Add es) size hfmt hw (Or.inl hmax)⟩

/-- C15 on the example with a stream added after `init`. -/
theorem C15_add_appends_in_order_witness :
    (((New [⟨[97, 98, 99], [120], false⟩]).init).fmtString
        = lineTemplate ((New [⟨[97, 98, 99], [120], false⟩]).init).nameWidth ∧
      ((New [⟨[97, 98, 99], [120], false⟩]).init).nameWidth ≤ 1000000 ∧
      0 ≤ maxContentWidth ((New [⟨[97, 98, 99], [120], false⟩]).init) none) ∧
    (lateExample.printLines none).polled = [false, false] ∧
    lateExample.dators = [⟨[97, 98, 99], [120], false⟩,
      ⟨[97, 98, 99, 100, 101, 102, 103, 104], [121], false⟩] ∧
    lateExample.nameWidth = 3 :=
  ⟨by decide,
    ((C15_add_appends_in_order ((New [⟨[97, 98, 99], [120], false⟩]).init) []
      [⟨[97, 98, 99, 100, 101, 102, 103, 104], [121], false⟩] none).2.2.2.2.2.2.2.2.2
        (by decide) (by decide) (by decide)).1,
    by decide, by decide⟩

theorem GetLastLine_no_newline (d : DefaultDator) : 10 ∉ d.GetLastLine := by
  rw [GetLastLine_eq]
  exact TrimSpace_not_mem _ _ (afterLastNewline_not_mem _)

theorem no_space_suffix (t y x : Bytes) (h : lastSpaceLen t = 0) (e : t = y ++ x)
    (hx : AllSpace x) : x = [] := by
  have h1 := TrimRightFunc_of_zero t h
  have h2 : TrimRightFunc t = TrimRightFunc y := by rw [e]; exact TrimRightFunc_allSpace y x hx
  obtain ⟨b, eb, _, _⟩ := TrimRightFunc_spec y
  have hlen : t.length ≤ y.length := by
    have := congrArg List.length eb
    rw [← h2, h1] at this
    simp only [List.length_append] at this
    omega
  have := congrArg List.length e
  simp only [List.length_append] at this
  exact List.eq_nil_of_length_eq_zero (by omega)

theorem GetLastLine_eq_nil_iff (d : DefaultDator) : d.GetLastLine = [] ↔ AllSpace d.Buffer := by
  rw [GetLastLine_eq]
  constructor
  · intro h
    rw [← TrimSpace_eq_nil_iff]
    by_contra hne
    obtain ⟨_, _, _, _, _, _, h2⟩ := TrimSpace_spec d.Buffer
    have hx := (TrimSpace_eq_nil_iff _).1 h
    rcases LastIndexByte_newline (TrimSpace d.Buffer) with ⟨_, _, h3⟩ | ⟨pos, _, _, h3⟩
    · rw [h3] at hx
      exact hne (no_space_suffix _ [] _ h2 (by simp) hx)
    · have e : TrimSpace d.Buffer
          = (TrimSpace d.Buffer).take pos ++ 10 :: afterLastNewline (TrimSpace d.Buffer) := by
        rw [← h3, List.take_append_drop]
      have hx2 : AllSpace (10 :: afterLastNewline (TrimSpace d.Buffer)) := by
        have := AllSpace_append [10] _ (AllSpace_ascii 10 (by decide)) hx
        simpa using this
      have := no_space_suffix _ _ _ h2 e hx2
      simp at this
  · intro h
    rw [TrimSpace_of_allSpace _ h]
    decide

/-- C18: the string `GetLastLine` returns holds no newline, neither starts nor ends with a
white-space rune (`TrimSpace` returns it unchanged), and is empty exactly when the content holds
no rune other than white space. -/
theorem C18_lastLine_is_trimmed (d : DefaultDator) :
    10 ∉ d.GetLastLine ∧ TrimSpace d.GetLastLine = d.GetLastLine ∧
    spaceLen d.GetLastLine = 0 ∧ lastSpaceLen d.GetLastLine = 0 ∧
    (d.GetLastLine = [] ↔ hasNonSpace d.Buffer = false) := by
  refine ⟨GetLastLine_no_newline d, ?_, ?_, ?_, ?_⟩
  · rw [GetLastLine_eq, TrimSpace_idem]
  · rw [GetLastLine_eq]
    obtain ⟨_, _, _, _, _, h1, _⟩ := TrimSpace_spec (afterLastNewline (TrimSpace d.Buffer))
    exact h1
  · rw [GetLastLine_eq]
    obtain ⟨_, _, _, _, _, _, h2⟩ := TrimSpace_spec (afterLastNewline (TrimSpace d.Buffer))
    exact h2
  · rw [GetLastLine_eq_nil_iff, hasNonSpace_false_iff]

/-! ### Rows and erase sequences -/

theorem eraseLines_eq (m : Manidator) :
    m.eraseLines = some (List.replicate m.dators.length eraseSequence).flatten := by
  unfold Manidator.eraseLines Sprintf
  rw [doPrintf_literal _ _ _ (Nat.lt_succ_self _), Repeat_eq, eraseLine_eq]
  intro b hb
  rw [Repeat_eq, eraseLine_eq] at hb
  simp only [List.mem_flatten, List.mem_replicate] at hb
  obtain ⟨l, ⟨_, rfl⟩, hb⟩ := hb
  revert b
  decide

theorem count_newline_row (nw : Nat) (name content : Bytes) (h1 : 10 ∉ name)
    (h2 : 10 ∉ content) : (row nw name content).count 10 = 1 := by
  have h3 : (10 : Nat) ∉ List.replicate (nw - RuneCountInString name) 32 := by
    intro h
    have := List.eq_of_mem_replicate h
    omega
  simp only [row, List.count_append, List.count_eq_zero_of_not_mem h1,
    List.count_eq_zero_of_not_mem h2, List.count_eq_zero_of_not_mem h3]
  decide

theorem shownName_not_mem (nw : Nat) (name : Bytes) (c : Nat) (h : c ∉ name) :
    c ∉ shownName nw name := by
  unfold shownName
  split
  · exact fun hc => h (List.mem_of_mem_drop hc)
  · exact h

theorem shownLine_no_newline (mw : Int) (line : Bytes) (h : 10 ∉ line) :
    10 ∉ shownLine mw line := by
  unfold shownLine lastBytes
  split
  · intro hc
    simp only [List.mem_append, List.mem_cons, List.mem_singleton] at hc
    rcases hc with hc | hc
    · simp at hc
    · exact h (List.mem_of_mem_drop hc)
  · exact h

theorem count_flatMap_one (ds : List Dator) (f : Dator → Bytes)
    (h : ∀ d ∈ ds, (f d).count 10 = 1) : (ds.flatMap f).count 10 = ds.length := by
  induction ds with
  | nil => rfl
  | cons d t ih =>
    simp only [List.flatMap_cons, List.count_append, List.length_cons]
    rw [h d (by simp), ih (fun x hx => h x (by simp [hx]))]
    omega

/-- C17, the code on a narrow terminal: one stream made by `NewDator` and named `abcde`, whose
name holds no newline, on a terminal ten columns wide.  The pass panics on the slice expression
and its output holds no newline, not one for the one stream, while `eraseLines` on the same
list writes one erase sequence. -/
theorem C17_narrow_pass_prints_no_row :
    narrowDefaultExample.dators = [NewDator [97, 98, 99, 100, 101]].map DefaultDator.toDator ∧
    (∀ d ∈ [NewDator [97, 98, 99, 100, 101]], 10 ∉ d.GetName) ∧
    (narrowDefaultExample.printLines (some 10)).panicked = true ∧
    (narrowDefaultExample.printLines (some 10)).out = some [] ∧
    ([] : Bytes).count 10 ≠ [NewDator [97, 98, 99, 100, 101]].length ∧
    narrowDefaultExample.eraseLines = some eraseSequence := by
  decide

/-- For `n` `DefaultDator` streams whose names hold no newline, after `init` with `nameWidth` at
most 1000000 and with a maximum content width that is not negative, the output of a render pass
holds exactly `n` newline bytes, and `eraseLines` writes `n` erase sequences. -/
theorem rows_match_erases (m : Manidator) (ds : List DefaultDator) (size : Option Int)
    (hds : m.dators = ds.map DefaultDator.toDator)
    (hfmt : m.fmtString = lineTemplate m.nameWidth) (hw : m.nameWidth ≤ 1000000)
    (hmax : 0 ≤ maxContentWidth m size) (hnames : ∀ d ∈ ds, 10 ∉ d.GetName) :
    ∃ o, (m.printLines size).out = some o ∧ o.count 10 = ds.length ∧
      m.eraseLines = some (List.replicate ds.length eraseSequence).flatten := by
  refine ⟨_, printLines_out m size hfmt hw (Or.inl hmax), ?_, ?_⟩
  · have hlen : ds.length = m.dators.length := by rw [hds]; simp
    rw [hlen]
    apply count_flatMap_one
    intro d hd
    rw [hds] at hd
    obtain ⟨dd, hdd, rfl⟩ := List.mem_map.1 hd
    apply count_newline_row
    · exact shownName_not_mem _ _ _ (hnames dd hdd)
    · exact shownLine_no_newline _ _ (GetLastLine_no_newline dd)
  · rw [eraseLines_eq, hds]; simp

/-- One stream named `abcde` that received `x\ny\n`, with the 80-column fallback. -/
theorem rows_match_erases_example :
    (writtenExample.dators = [writtenDator].map DefaultDator.toDator ∧
      writtenExample.fmtString = lineTemplate writtenExample.nameWidth ∧
      writtenExample.nameWidth ≤ 1000000 ∧ 0 ≤ maxContentWidth writtenExample none ∧
      ∀ d ∈ [writtenDator], 10 ∉ d.GetName) ∧
    (∃ o, (writtenExample.printLines none).out = some o ∧ o.count 10 = [writtenDator].length ∧
      writtenExample.eraseLines
        = some (List.replicate [writtenDator].length eraseSequence).flatten) ∧
    (writtenExample.printLines none).out = some [97, 98, 99, 100, 101, 62, 32, 121, 10] :=
  ⟨by decide,
    rows_match_erases writtenExample [writtenDator] none
      (by decide) (by decide) (by decide) (by decide) (by decide),
    by decide⟩

/-! ### The render loop and `Stop` -/

theorem step_stopped (s : Sys) (h : s.loop = .exited ∨ s.loop = .crashed) (a : Action)
    (s1 : Sys) (o : StepOut) (hs : s.step a = some (s1, o)) :
    s1.loop = s.loop ∧ o = StepOut.silent := by
  cases a with
  | begin =>
    simp only [Sys.step, Sys.Begin] at hs
    rcases h with h | h <;> simp [h] at hs
  | iterate t =>
    simp only [Sys.step, Sys.iterate] at hs
    rcases h with h | h <;> simp [h] at hs
  | stopClose =>
    simp only [Sys.step, Sys.stopClose] at hs
    split at hs
    · simp only [Option.some.injEq, Prod.mk.injEq] at hs
      obtain ⟨rfl, rfl⟩ := hs
      exact ⟨rfl, rfl⟩
    · exact absurd hs (by simp)
  | stopReturn =>
    simp only [Sys.step, Sys.stopReturn] at hs
    split at hs
    · simp only [Option.some.injEq, Prod.mk.injEq] at hs
      obtain ⟨rfl, rfl⟩ := hs
      exact ⟨rfl, rfl⟩
    · exact absurd hs (by simp)

/-- Once the goroutine has returned or panicked, no step renders or writes anything. -/
theorem run_stopped (s : Sys) (h : s.loop = .exited ∨ s.loop = .crashed) (acts : List Action)
    (p : Sys × List StepOut) (hr : s.run acts = some p) :
    p.1.loop = s.loop ∧ ∀ x ∈ p.2, x = StepOut.silent := by
  induction acts generalizing s p with
  | nil =>
    simp only [Sys.run, Option.some.injEq] at hr
    subst hr
    exact ⟨rfl, by simp⟩
  | cons a as ih =>
    simp only [Sys.run] at hr
    cases hstep : s.step a with
    | none => simp [hstep] at hr
    | some q =>
      obtain ⟨s1, o⟩ := q
      obtain ⟨hl, ho⟩ := step_stopped s h a s1 o hstep
      rw [hstep] at hr
      simp only at hr
      cases hrun : s1.run as with
      | none => simp [hrun] at hr
      | some q2 =>
        obtain ⟨s2, os⟩ := q2
        rw [hrun] at hr
        simp only [Option.some.injEq] at hr
        subst hr
        obtain ⟨h1, h2⟩ := ih s1 (by rw [hl]; exact h) (s2, os) hrun
        refine ⟨by rw [h1, hl], ?_⟩
        intro x hx
        simp only [List.mem_cons] at hx
        rcases hx with rfl | hx
        · exact ho
        · exact h2 x hx

/-- An iteration whose pass panics: what was printed before the panic is written, nothing is
erased, the deferred `wg.Done()` runs and the loop is over. -/
theorem iterate_panic (s : Sys) (t : Tick) (hl : s.loop = .running)
    (hp : (s.pass t).panicked = true) :
    s.iterate t = some
      ({ s with m := { s.m with dators := t.dators }, loop := .crashed, wg := s.wg - 1 },
        { out := (s.pass t).out, erased := false }) := by
  unfold Sys.iterate
  rw [if_pos hl, if_pos hp]

/-- An iteration whose wait is ended by the timer: the rows and then the erase sequences are
written, and the goroutine stays in its loop. -/
theorem iterate_timer (s : Sys) (t : Tick) (hl : s.loop = .running)
    (hp : (s.pass t).panicked = false) (ht : t.wait = .timer) :
    s.iterate t = some ({ s with m := s.seen t },
      { out := (s.pass t).out.map
          (fun r => r ++ (List.replicate t.dators.length eraseSequence).flatten),
        erased := true }) := by
  have hr : selectReady (s.seen t) t.ctxDone t.wait = true := by rw [ht]; rfl
  have hd : (s.seen t).dators = t.dators := rfl
  unfold Sys.iterate
  rw [if_pos hl, if_neg (by rw [hp]; simp), if_pos hr, if_pos ht, eraseLines_eq, hd]
  cases (s.pass t).out <;> rfl

/-- An iteration whose wait is ended by `done`, `cancel` or the context: the rows are written,
nothing is erased, the goroutine returns and the deferred `wg.Done()` runs. -/
theorem iterate_exit (s : Sys) (t : Tick) (hl : s.loop = .running)
    (hp : (s.pass t).panicked = false) (ht : t.wait ≠ .timer)
    (hr : selectReady (s.seen t) t.ctxDone t.wait = true) :
    s.iterate t = some ({ s with m := s.seen t, loop := .exited, wg := s.wg - 1 },
      { out := (s.pass t).out, erased := false }) := by
  unfold Sys.iterate
  rw [if_pos hl, if_neg (by rw [hp]; simp), if_pos hr, if_neg ht]

theorem iterate_blocked (s : Sys) (t : Tick) (hl : s.loop = .running)
    (hp : (s.pass t).panicked = false)
    (hr : ¬ selectReady (s.seen t) t.ctxDone t.wait = true) : s.iterate t = none := by
  unfold Sys.iterate
  rw [if_pos hl, if_neg (by rw [hp]; simp), if_neg hr]

/-- What an iteration does, by cases. -/
theorem iterate_cases (s : Sys) (t : Tick) (s1 : Sys) (o : StepOut)
    (h : s.iterate t = some (s1, o)) :
    s.loop = .running ∧
    ((s.pass t).panicked = true ∧ s1.loop = .crashed ∧ s1.wg = s.wg - 1 ∧ s1.stop = s.stop ∧
        s1.m.cancel = s.m.cancel ∧ o.erased = false ∧ o.out = (s.pass t).out ∨
      (s.pass t).panicked = false ∧ t.wait = .timer ∧ s1.loop = .running ∧ s1.wg = s.wg ∧
        s1.stop = s.stop ∧ s1.m.cancel = s.m.cancel ∧ o.erased = true ∧
        o.out = (s.pass t).out.map
          (fun r => r ++ (List.replicate t.dators.length eraseSequence).flatten) ∨
      (s.pass t).panicked = false ∧ t.wait ≠ .timer ∧ s1.loop = .exited ∧ s1.wg = s.wg - 1 ∧
        s1.stop = s.stop ∧ s1.m.cancel = s.m.cancel ∧ o.erased = false ∧
        o.out = (s.pass t).out) := by
  by_cases hl : s.loop = .running
  · refine ⟨hl, ?_⟩
    by_cases hp : (s.pass t).panicked = true
    · rw [iterate_panic s t hl hp] at h
      simp only [Option.some.injEq, Prod.mk.injEq] at h
      obtain ⟨rfl, rfl⟩ := h
      exact Or.inl ⟨hp, rfl, rfl, rfl, rfl, rfl, rfl⟩
    · have hp' : (s.pass t).panicked = false := by simpa using hp
      by_cases ht : t.wait = .timer
      · rw [iterate_timer s t hl hp' ht] at h
        simp only [Option.some.injEq, Prod.mk.injEq] at h
        obtain ⟨rfl, rfl⟩ := h
        exact Or.inr (Or.inl ⟨hp', ht, hl, rfl, rfl, rfl, rfl, rfl⟩)
      · by_cases hr : selectReady (s.seen t) t.ctxDone t.wait = true
        · rw [iterate_exit s t hl hp' ht hr] at h
          simp only [Option.some.injEq, Prod.mk.injEq] at h
          obtain ⟨rfl, rfl⟩ := h
          exact Or.inr (Or.inr ⟨hp', ht, rfl, rfl, rfl, rfl, rfl, rfl⟩)
        · rw [iterate_blocked s t hl hp' hr] at h
          exact absurd h (by simp)
  · unfold Sys.iterate at h
    rw [if_neg hl] at h
    exact absurd h (by simp)

theorem iterate_timer_possible (s : Sys) (t : Tick) (hl : s.loop = .running)
    (ht : t.wait = .timer) : (s.iterate t).isSome = true := by
  by_cases hp : (s.pass t).panicked = true
  · rw [iterate_panic s t hl hp]; rfl
  · rw [iterate_timer s t hl (by simpa using hp) ht]; rfl

/-- C14: while the goroutine is in its loop, an iteration whose pass does not panic and whose
wait is ended by the timer writes the rows of the pass followed by one erase sequence per
stream, calls `eraseLines`, changes nothing but what the pass changed and leaves the goroutine
in its loop, where a further iteration (a render pass and a wait) is possible; an iteration
whose wait is ended by `done`, `cancel` or the context, whichever of them can fire, writes the
rows only and the goroutine returns.  Conversely, whatever an iteration does, it calls
`eraseLines` exactly when the timer fired and the loop goes on, it writes the output of its pass
alone when it does not erase, and after a wait ended by `done`, `cancel` or the context no
sequence of steps renders or writes anything again. -/
theorem C14_loop_erases_only_on_timer (s : Sys) (t : Tick) :
    (s.loop = .running → (s.pass t).panicked = false → t.wait = .timer →
      s.iterate t = some ({ s with m := s.seen t },
        { out := (s.pass t).out.map
            (fun r => r ++ (List.replicate t.dators.length eraseSequence).flatten),
          erased := true }) ∧
      ∀ t2 : Tick, t2.wait = .timer →
        (({ s with m := s.seen t } : Sys).iterate t2).isSome = true) ∧
    (s.loop = .running → (s.pass t).panicked = false → t.wait ≠ .timer →
      selectReady (s.seen t) t.ctxDone t.wait = true →
      s.iterate t = some ({ s with m := s.seen t, loop := .exited, wg := s.wg - 1 },
        { out := (s.pass t).out, erased := false })) ∧
    (s.loop = .running → t.wait = .timer → (s.iterate t).isSome = true) ∧
    ∀ p, s.iterate t = some p →
      s.loop = .running ∧
      (p.2.erased = true ↔ t.wait = .timer ∧ p.1.loop = .running) ∧
      (p.1.loop = .running ↔ p.2.erased = true) ∧
      (p.2.erased = true →
        p.2.out = (s.pass t).out.map
          (fun r => r ++ (List.replicate t.dators.length eraseSequence).flatten)) ∧
      (p.2.erased = false → p.2.out = (s.pass t).out) ∧
      (t.wait ≠ .timer →
        p.2.erased = false ∧ p.1.loop ≠ .running ∧
        ∀ acts q, p.1.run acts = some q →
          q.1.loop ≠ .running ∧ ∀ x ∈ q.2, x.erased = false ∧ x.out = some []) := by
  refine ⟨fun hl hp ht => ⟨iterate_timer s t hl hp ht, fun t2 ht2 =>
      iterate_timer_possible _ t2 hl ht2⟩,
    iterate_exit s t, iterate_timer_possible s t, ?_⟩
  rintro ⟨s1, o⟩ h
  obtain ⟨hl, hc⟩ := iterate_cases s t s1 o h
  refine ⟨hl, ?_⟩
  rcases hc with ⟨_, h1, _, _, _, h2, h3⟩ | ⟨_, ht, h1, _, _, _, h2, h3⟩ |
    ⟨_, ht, h1, _, _, _, h2, h3⟩
  · simp only [h1, h2]
    refine ⟨by simp, by simp, by simp, fun _ => h3, ?_⟩
    intro hw
    refine ⟨trivial, by simp, ?_⟩
    intro acts q hq
    obtain ⟨e1, e2⟩ := run_stopped s1 (Or.inr h1) acts q hq
    refine ⟨by rw [e1, h1]; simp, fun x hx => ?_⟩
    rw [e2 x hx]
    exact ⟨rfl, rfl⟩
  · simp only [h1, h2, ht]
    exact ⟨by simp, by simp, fun _ => h3, by simp, fun hw => absurd rfl hw⟩
  · simp only [h1, h2]
    refine ⟨by simp, by simp, by simp, fun _ => h3, ?_⟩
    intro _
    refine ⟨trivial, by simp, ?_⟩
    intro acts q hq
    obtain ⟨e1, e2⟩ := run_stopped s1 (Or.inl h1) acts q hq
    refine ⟨by rw [e1, h1]; simp, fun x hx => ?_⟩
    rw [e2 x hx]
    exact ⟨rfl, rfl⟩

/-- C14 on the three-stream example.  When the timer ends the first wait, the three rows and
three erase sequences are written and the goroutine is still in its loop; when the context ends
it, the rows alone are written and the goroutine has returned. -/
theorem C14_loop_erases_only_on_timer_witness :
    ((begunExample.loop = .running ∧ (begunExample.pass (threeTick .timer)).panicked = false ∧
        (threeTick .timer).wait = .timer) ∧
      begunExample.iterate (threeTick .timer)
        = some ({ begunExample with m := begunExample.seen (threeTick .timer) },
          { out := (begunExample.pass (threeTick .timer)).out.map
              (fun r => r ++
                (List.replicate (threeTick .timer).dators.length eraseSequence).flatten),
            erased := true }) ∧
      ({ begunExample with m := begunExample.seen (threeTick .timer) } : Sys) = begunExample ∧
      (begunExample.pass (threeTick .timer)).out.map
          (fun r => r ++ (List.replicate (threeTick .timer).dators.length eraseSequence).flatten)
        = some ([32, 32, 97, 62, 32, 120, 10] ++ [32, 98, 98, 62, 32, 121, 121, 10]
            ++ [99, 99, 99, 62, 32, 122, 122, 122, 10]
            ++ [27, 91, 49, 65, 27, 91, 50, 75, 13] ++ [27, 91, 49, 65, 27, 91, 50, 75, 13]
            ++ [27, 91, 49, 65, 27, 91, 50, 75, 13])) ∧
    ((begunExample.loop = .running ∧ (begunExample.pass ctxTick).panicked = false ∧
        ctxTick.wait ≠ .timer ∧
        selectReady (begunExample.seen ctxTick) ctxTick.ctxDone ctxTick.wait = true) ∧
      begunExample.iterate ctxTick
        = some
          ({ begunExample with m := begunExample.seen ctxTick, loop := .exited, wg := 1 - 1 },
            { out := (begunExample.pass ctxTick).out, erased := false }) ∧
      ({ begunExample with m := begunExample.seen ctxTick, loop := .exited, wg := 1 - 1 } : Sys)
        = { m := threeExample, wg := 0, loop := .exited, stop := .idle } ∧
      (begunExample.pass ctxTick).out
        = some ([32, 32, 97, 62, 32, 120, 10] ++ [32, 98, 98, 62, 32, 121, 121, 10]
            ++ [99, 99, 99, 62, 32, 122, 122, 122, 10])) :=
  ⟨⟨by decide,
      ((C14_loop_erases_only_on_timer begunExample (threeTick .timer)).1
        (by decide) (by decide) (by decide)).1,
      by decide, by decide⟩,
    ⟨by decide,
      (C14_loop_erases_only_on_timer begunExample ctxTick).2.1
        (by decide) (by decide) (by decide) (by decide),
      by decide, by decide⟩⟩

theorem Inv_step (s : Sys) (hi : s.Inv) (a : Action) (s1 : Sys) (o : StepOut)
    (hs : s.step a = some (s1, o)) : s1.Inv := by
  obtain ⟨h1, h2⟩ := hi
  cases a with
  | begin =>
    simp only [Sys.step, Sys.Begin] at hs
    split at hs
    · rename_i hidle
      rcases h1 with ⟨h, _⟩ | ⟨h, _⟩ | ⟨h, _⟩ <;> rw [h] at hidle <;> simp at hidle
    · exact absurd hs (by simp)
  | iterate t =>
    have hs' : s.iterate t = some (s1, o) := hs
    obtain ⟨hl, hc⟩ := iterate_cases s t s1 o hs'
    have hw : s.wg = 1 ∧ s.stop ≠ .returned := by
      rcases h1 with ⟨_, h, h'⟩ | ⟨h, _⟩ | ⟨h, _⟩
      · exact ⟨h, h'⟩
      · rw [h] at hl; simp at hl
      · rw [h] at hl; simp at hl
    rcases hc with ⟨_, e1, e2, e3, e4, _, _⟩ | ⟨_, _, e1, e2, e3, e4, _, _⟩ |
      ⟨_, _, e1, e2, e3, e4, _, _⟩
    · refine ⟨Or.inr (Or.inr ⟨e1, by rw [e2, hw.1]⟩), ?_⟩
      rw [e3, e4]; exact h2
    · refine ⟨Or.inl ⟨e1, by rw [e2]; exact hw.1, by rw [e3]; exact hw.2⟩, ?_⟩
      rw [e3, e4]; exact h2
    · refine ⟨Or.inr (Or.inl ⟨e1, by rw [e2, hw.1]⟩), ?_⟩
      rw [e3, e4]; exact h2
  | stopClose =>
    simp only [Sys.step, Sys.stopClose] at hs
    split at hs
    · simp only [Option.some.injEq, Prod.mk.injEq] at hs
      obtain ⟨rfl, _⟩ := hs
      refine ⟨?_, fun _ => rfl⟩
      rcases h1 with ⟨h, h', _⟩ | ⟨h, h'⟩ | ⟨h, h'⟩
      · exact Or.inl ⟨h, h', by simp⟩
      · exact Or.inr (Or.inl ⟨h, h'⟩)
      · exact Or.inr (Or.inr ⟨h, h'⟩)
    · exact absurd hs (by simp)
  | stopReturn =>
    simp only [Sys.step, Sys.stopReturn] at hs
    split at hs
    · rename_i hc
      simp only [Option.some.injEq, Prod.mk.injEq] at hs
      obtain ⟨rfl, _⟩ := hs
      refine ⟨?_, fun _ => h2 (by rw [hc.1]; simp)⟩
      rcases h1 with ⟨_, h', _⟩ | ⟨h, h'⟩ | ⟨h, h'⟩
      · omega
      · exact Or.inr (Or.inl ⟨h, h'⟩)
      · exact Or.inr (Or.inr ⟨h, h'⟩)
    · exact absurd hs (by simp)

theorem Inv_run (s : Sys) (hi : s.Inv) (acts : List Action) (p : Sys × List StepOut)
    (hr : s.run acts = some p) : p.1.Inv := by
  induction acts generalizing s p with
  | nil =>
    simp only [Sys.run, Option.some.injEq] at hr
    subst hr
    exact hi
  | cons a as ih =>
    simp only [Sys.run] at hr
    cases hstep : s.step a with
    | none => simp [hstep] at hr
    | some q =>
      obtain ⟨s1, o⟩ := q
      rw [hstep] at hr
      simp only at hr
      cases hrun : s1.run as with
      | none => simp [hrun] at hr
      | some q2 =>
        rw [hrun] at hr
        simp only [Option.some.injEq] at hr
        subst hr
        exact ih s1 (Inv_step s hi a s1 o hstep) q2 hrun

theorem run_begin (m : Manidator) (acts : List Action) (p : Sys × List StepOut)
    (h : (Sys.boot m).run (.begin :: acts) = some p) :
    ∃ q, ({ m := m.init, wg := 1, loop := .running, stop := .idle } : Sys).run acts = some q ∧
      q.1 = p.1 := by
  simp only [Sys.run, Sys.step, Sys.Begin, Sys.boot, if_true, Nat.zero_add] at h
  cases hrun : ({ m := m.init, wg := 1, loop := .running, stop := .idle } : Sys).run acts with
  | none => simp [hrun] at h
  | some q =>
    rw [hrun] at h
    simp only [Option.some.injEq] at h
    subst h
    exact ⟨q, rfl, rfl⟩

/-- In every run that starts with `Begin`, once `Stop` has returned it has closed `cancel`, the
counter of the wait group is zero and the goroutine of `Begin` is no longer in its loop: it has
returned or a pass has panicked; from then on no sequence of steps starts the loop again or
writes anything. -/
theorem Stop_returned_loop_over (m : Manidator) (acts : List Action)
    (p : Sys × List StepOut) (h : (Sys.boot m).run (.begin :: acts) = some p)
    (hret : p.1.stop = .returned) :
    (p.1.loop = .exited ∨ p.1.loop = .crashed) ∧ p.1.wg = 0 ∧ p.1.m.cancel = true ∧
    ∀ acts2 q, p.1.run acts2 = some q →
      q.1.loop = p.1.loop ∧ ∀ x ∈ q.2, x.erased = false ∧ x.out = some [] := by
  obtain ⟨q0, hq0, e⟩ := run_begin m acts p h
  have hinv : p.1.Inv := by
    rw [← e]
    refine Inv_run _ ?_ acts q0 hq0
    exact ⟨Or.inl ⟨rfl, rfl, by simp⟩, fun hne => absurd rfl hne⟩
  obtain ⟨h1, h2⟩ := hinv
  have hex : (p.1.loop = .exited ∨ p.1.loop = .crashed) ∧ p.1.wg = 0 := by
    rcases h1 with ⟨_, _, h'⟩ | h' | h'
    · exact absurd hret h'
    · exact ⟨Or.inl h'.1, h'.2⟩
    · exact ⟨Or.inr h'.1, h'.2⟩
  refine ⟨hex.1, hex.2, h2 (by rw [hret]; simp), ?_⟩
  intro acts2 q hq
  obtain ⟨e1, e2⟩ := run_stopped p.1 hex.1 acts2 q hq
  refine ⟨e1, fun x hx => ?_⟩
  rw [e2 x hx]
  exact ⟨rfl, rfl⟩

/-- The three-stream example: `Begin`, one refresh, `Stop`, the pass that sees `cancel`, and the
return of `Stop`, which finds the goroutine returned. -/
theorem Stop_returned_example :
    (((Sys.boot threeFresh).run (.begin :: stopTrace)).map fun p => (p.1.stop, p.1.loop, p.1.wg))
      = some (.returned, .exited, 0) ∧
    (((Sys.boot threeFresh).run (.begin :: stopTrace)).map fun p => p.2.map fun x => x.erased)
      = some [false, true, false, false, false] := by
  decide

/-- C16, the code when the first pass panics: one stream named `abcde` on a terminal ten columns
wide.  `Begin` starts the goroutine and `Stop` closes `cancel`; the first pass panics on the
slice expression, the deferred `wg.Done()` runs while the goroutine unwinds, and `wg.Wait()` in
`Stop` returns: `Stop` has returned although the goroutine never returned from its loop, and the
report of the panic is still to come. -/
theorem C16_stop_returns_after_panic :
    (narrowFresh.init.printLines (some 10)).panicked = true ∧
    (Sys.boot narrowFresh).run stopEarlyTrace
      = some
        ({ m := { narrowFresh.init with cancel := true }, wg := 0, loop := .crashed,
           stop := .returned },
          [StepOut.silent, StepOut.silent, StepOut.silent, StepOut.silent]) ∧
    (((Sys.boot narrowFresh).run stopEarlyTrace).map fun p => p.1.stop) = some .returned ∧
    (((Sys.boot narrowFresh).run stopEarlyTrace).map fun p => p.1.loop) ≠ some .exited := by
  decide

end GoManidator
